import Mathlib

/-!
Shallow embedding of the qBittorrent smart-queue scheduler
(`plugins.v2/qbsmartqueue/__init__.py`, class `QbSmartQueue`).

The scheduling pass `_manage_single_downloader` is embedded as a pure
function `runPass` over a per-pass snapshot of torrents.  The external
downloader collaborator is modelled as the idealised one the code's
"mutate, then re-fetch" pattern assumes: a `stop_torrents` request moves
the named torrents to the paused state `"stoppedDL"`, a `start_torrents`
request moves them to the active state `"downloading"`, and a re-fetch
returns the snapshot with exactly those transitions applied
(`applyStops` / `applyStarts`).  Machine integers are embedded as `Int`
(Python ints are unbounded); byte quantities carried by torrents are
`Nat` as in the qBittorrent API (`amount_left`, `total_size`, `added_on`,
`dlspeed` are non-negative).  The pass-local virtual disk ledger
`free_space_map` is a total function `String → Int` sampled once per pass
(its key set is the configured `download_paths`, so dictionary emptiness
is `downloadPaths = []` and every matched path is a key).
-/

/-- One torrent of a snapshot, as consumed by `_manage_single_downloader`:
`hash` (id; `""` models a missing/empty hash), `name`, raw `state` tag,
`amount_left`, `total_size`, `added_on`, `save_path`, and the download
speed in bytes/s (the source reads it through `_get_download_speed_bps`,
which collapses the `dlspeed`/`dl_speed`/`download_speed` field fallback
and the `max(int(speed), 0)` clamp into one non-negative number). -/
structure Torrent where
  hash : String
  name : String
  state : String
  amount_left : Nat
  total_size : Nat
  added_on : Nat
  save_path : String
  dlspeed : Nat
deriving DecidableEq, Repr

/-- The configuration surface of the plugin that the scheduling pass reads.
`capacityBytes` is `_max_capacity_gb * 1024^3` and `minFreeBytes` is
`_min_free_gb * 1024^3`, both already converted to bytes. -/
structure Config where
  capacityBytes : Int
  priorityMode : String
  enableSmartSkip : Bool
  enableLowSpeedTolerance : Bool
  lowSpeedThresholdKib : Int
  lowSpeedStalledOnly : Bool
  downloadPaths : List String
  minFreeBytes : Int
deriving DecidableEq, Repr

/-- The fixed set `_ACTIVE_DL_STATES` of the source. -/
def activeStates : List String :=
  ["downloading", "stalledDL", "metaDL", "checkingDL", "forcedDL", "allocating"]

/-- The fixed set `_PAUSED_DL_STATES` of the source. -/
def pausedStates : List String :=
  ["pausedDL", "stoppedDL", "queuedDL"]

/-- Membership of a raw state tag in `_ACTIVE_DL_STATES`. -/
def isActiveState (s : String) : Bool := activeStates.contains s

/-- Membership of a raw state tag in `_PAUSED_DL_STATES`. -/
def isPausedState (s : String) : Bool := pausedStates.contains s

/-- The three-way classification a snapshot torrent receives (spec 4.1):
`active` / `paused` by membership in the fixed state sets, everything
else `ignored`. -/
inductive TClass where
  | active
  | paused
  | ignored
deriving DecidableEq, Repr

/-- Classification of one raw state tag, exactly as the classification
loop of `_manage_single_downloader` tests it (`state in _ACTIVE_DL_STATES`,
`elif state in _PAUSED_DL_STATES`, else neither list). -/
def classifyState (s : String) : TClass :=
  if isActiveState s then .active
  else if isPausedState s then .paused
  else .ignored

/-- The Active sublist of a snapshot (`active_torrents`). -/
def activesOf (ts : List Torrent) : List Torrent :=
  ts.filter (fun t => isActiveState t.state)

/-- The Paused sublist of a snapshot (`paused_torrents`). -/
def pausedOf (ts : List Torrent) : List Torrent :=
  ts.filter (fun t => isPausedState t.state)

/-- Sum of `amount_left` over a list of torrents, as an `Int`
(`active_left = sum(t.get("amount_left", 0) ...)`). -/
def sumLeft (ts : List Torrent) : Int :=
  (ts.map (fun t => (t.amount_left : Int))).sum

/-- Python's `s.rstrip("/")`: drop every trailing `'/'` character. -/
def rstripSlashes (s : String) : String :=
  String.mk ((s.data.reverse.dropWhile (fun c => c == '/')).reverse)

/-- Python's `s.startswith(p)` on strings. -/
def strStartsWith (s p : String) : Bool :=
  p.data.isPrefixOf s.data

/-- `_is_path_under_paths(save_path, paths)`: `save_path` equals a
normalised base path or is nested strictly below it; false on an empty
`save_path` or an empty path list. -/
def isPathUnderPaths (save_path : String) (paths : List String) : Bool :=
  if save_path == "" || paths.isEmpty then false
  else paths.any (fun base =>
    save_path == rstripSlashes base ||
      strStartsWith save_path (rstripSlashes base ++ "/"))

/-- `_match_download_path(save_path)`: the first configured download path
that `save_path` equals or sits under (the nesting test normalises the
configured path with `rstrip("/")`); `none` when nothing is configured,
`save_path` is empty, or no path matches. -/
def matchDownloadPath (cfg : Config) (save_path : String) : Option String :=
  if cfg.downloadPaths.isEmpty || save_path == "" then none
  else cfg.downloadPaths.find? (fun dp =>
    save_path == dp || strStartsWith save_path (rstripSlashes dp ++ "/"))

/-- `_check_disk_budget(save_path, needed, free_map, ...)`: true when no
directory is monitored, when `save_path` matches no monitored directory,
or when admitting `needed` bytes keeps the matched directory's virtual
free space at or above `minFreeBytes`. -/
def checkDiskBudget (cfg : Config) (free : String → Int)
    (save_path : String) (needed : Nat) : Bool :=
  if cfg.downloadPaths.isEmpty then true
  else
    match matchDownloadPath cfg save_path with
    | none => true
    | some p => decide (free p - (needed : Int) ≥ cfg.minFreeBytes)

/-- `_deduct_disk_budget(save_path, used, free_map, ...)`: subtract `used`
from the virtual ledger at the matched monitored path (a key of the
ledger iff it is a configured download path); no clamping at zero. -/
def deductDiskBudget (cfg : Config) (save_path : String) (used : Nat)
    (free : String → Int) : String → Int :=
  match matchDownloadPath cfg save_path with
  | none => free
  | some p =>
      if cfg.downloadPaths.contains p then
        fun q => if q == p then free q - (used : Int) else free q
      else free

/-- The monitored paths flagged low this pass
(`low_space_paths = [dp for dp, free in free_space_map.items() if free < min_free_bytes]`). -/
def lowSpacePaths (cfg : Config) (free : String → Int) : List String :=
  cfg.downloadPaths.filter (fun dp => decide (free dp < cfg.minFreeBytes))

/-- `_is_low_speed_torrent(torrent)`. -/
def isLowSpeedTorrent (cfg : Config) (t : Torrent) : Bool :=
  if !cfg.enableLowSpeedTolerance then false
  else if decide (cfg.lowSpeedThresholdKib ≤ 0) then false
  else if cfg.lowSpeedStalledOnly && t.state != "stalledDL" then false
  else decide ((t.dlspeed : Int) ≤ cfg.lowSpeedThresholdKib * 1024)

/-- Insertion step of a stable insertion sort: place `a` before the first
element it is related to. -/
def insertR (r : Torrent → Torrent → Bool) (a : Torrent) :
    List Torrent → List Torrent
  | [] => [a]
  | b :: l => if r a b then a :: b :: l else b :: insertR r a l

/-- Stable sort by the Boolean relation `r` (the embedding of Python's
stable `sorted`/`list.sort`: for a total transitive `r`, the stable
sorted permutation is unique, and this insertion sort computes it). -/
def sortR (r : Torrent → Torrent → Bool) : List Torrent → List Torrent
  | [] => []
  | a :: l => insertR r a (sortR r l)

/-- The sorted admission queue (step 5 of the pass): `total_size`
ascending in `size` mode, `added_on` ascending otherwise. -/
def sortPaused (cfg : Config) (paused : List Torrent) : List Torrent :=
  if cfg.priorityMode == "size" then
    sortR (fun a b => decide (a.total_size ≤ b.total_size)) paused
  else
    sortR (fun a b => decide (a.added_on ≤ b.added_on)) paused

/-- Ordered suspension candidates of the Overflow Resolver: active
torrents sorted by `added_on` descending (stably), and, when low-speed
tolerance is on with a positive threshold, partitioned so that
normal-speed candidates precede low-speed ones. -/
def overflowCandidates (cfg : Config) (actives : List Torrent) : List Torrent :=
  let sortedCands := sortR (fun a b => decide (b.added_on ≤ a.added_on)) actives
  if cfg.enableLowSpeedTolerance && decide (cfg.lowSpeedThresholdKib > 0) then
    let parts := sortedCands.partition (fun t => isLowSpeedTorrent cfg t)
    parts.2 ++ parts.1
  else sortedCands

/-- The suspension walk of the Overflow Resolver (step 4): stop at the
top of each iteration once `acc ≤ cap`, skip candidates with an empty
hash without touching `acc`, otherwise collect the hash and subtract the
candidate's `amount_left`.  Returns the collected stop ids and the final
tracked `active_left`. -/
def overflowWalk (cap : Int) : List Torrent → Int → List String × Int
  | [], acc => ([], acc)
  | t :: rest, acc =>
      if acc ≤ cap then ([], acc)
      else if t.hash == "" then overflowWalk cap rest acc
      else
        let res := overflowWalk cap rest (acc - (t.amount_left : Int))
        (t.hash :: res.1, res.2)

/-- Effect of a `stop_torrents(ids)` request as re-observed by the next
snapshot fetch from the idealised collaborator: the named torrents are
now in the paused state `"stoppedDL"`. -/
def applyStops (ids : List String) (ts : List Torrent) : List Torrent :=
  ts.map (fun t => if t.hash ∈ ids then { t with state := "stoppedDL" } else t)

/-- Effect of a `start_torrents(ids)` request: the named torrents are now
in the active state `"downloading"`. -/
def applyStarts (ids : List String) (ts : List Torrent) : List Torrent :=
  ts.map (fun t => if t.hash ∈ ids then { t with state := "downloading" } else t)

/-- The ids collected by the Disk Protection Stage (step 2 of the pass):
every active torrent with a non-empty `save_path` under a low-space path
and a non-empty hash. -/
def diskStopIds (cfg : Config) (free : String → Int) (ts : List Torrent) :
    List String :=
  if (lowSpacePaths cfg free).isEmpty then []
  else ts.filterMap (fun t =>
    if isActiveState t.state && t.save_path != "" &&
        isPathUnderPaths t.save_path (lowSpacePaths cfg free) && t.hash != ""
    then some t.hash else none)

/-- Snapshot after the Disk Protection Stage: re-fetched (stops applied)
only when some torrent was actually stopped. -/
def snapAfterDisk (cfg : Config) (free : String → Int) (ts : List Torrent) :
    List Torrent :=
  if (diskStopIds cfg free ts).isEmpty then ts
  else applyStops (diskStopIds cfg free ts) ts

/-- Output of the Overflow Resolver: issued stop ids, the (possibly
re-fetched) snapshot, and the tracked `active_left` entering the
admission loop. -/
structure OverflowOut where
  stopIds : List String
  ts : List Torrent
  activeLeft : Int

/-- The Overflow Resolver (step 4 of the pass): when the active remainder
exceeds the capacity, walk the ordered candidates; if any stop was issued,
re-fetch the snapshot and recompute `active_left` from it. -/
def overflowStage (cfg : Config) (ts1 : List Torrent) : OverflowOut :=
  if sumLeft (activesOf ts1) > cfg.capacityBytes then
    if (overflowWalk cfg.capacityBytes (overflowCandidates cfg (activesOf ts1))
        (sumLeft (activesOf ts1))).1.isEmpty then
      ⟨(overflowWalk cfg.capacityBytes (overflowCandidates cfg (activesOf ts1))
          (sumLeft (activesOf ts1))).1, ts1,
        (overflowWalk cfg.capacityBytes (overflowCandidates cfg (activesOf ts1))
          (sumLeft (activesOf ts1))).2⟩
    else
      ⟨(overflowWalk cfg.capacityBytes (overflowCandidates cfg (activesOf ts1))
          (sumLeft (activesOf ts1))).1,
        applyStops (overflowWalk cfg.capacityBytes
          (overflowCandidates cfg (activesOf ts1))
          (sumLeft (activesOf ts1))).1 ts1,
        sumLeft (activesOf (applyStops (overflowWalk cfg.capacityBytes
          (overflowCandidates cfg (activesOf ts1))
          (sumLeft (activesOf ts1))).1 ts1))⟩
  else ⟨[], ts1, sumLeft (activesOf ts1)⟩

/-- The running state of the Admission Loop: tracked `active_left`, the
virtual disk ledger, the release ids, and the reporting lists
`released` / `skipped` / `skipped_disk` (torrent names). -/
structure LoopSt where
  activeLeft : Int
  free : String → Int
  releaseIds : List String
  released : List String
  skipped : List String
  skippedDisk : List String

/-- The low-space skip guard shared by the Admission Loop and the
Anti-Deadlock Guard (`if low_space_paths and t_save: ... if is_low_space_path: continue`). -/
def lowSkip (lows : List String) (t : Torrent) : Bool :=
  !lows.isEmpty && t.save_path != "" && isPathUnderPaths t.save_path lows

/-- The Admission Loop (step 6 of the pass), walking the sorted paused
queue: skip low-space paths; resume finished torrents unconditionally;
skip on an insufficient disk budget; admit within capacity (updating
`active_left` and the ledger); on capacity overflow either record a
smart skip and continue, or stop scanning. -/
def admitLoop (cfg : Config) (lows : List String) :
    List Torrent → LoopSt → LoopSt
  | [], st => st
  | t :: rest, st =>
      if lowSkip lows t then admitLoop cfg lows rest st
      else if t.amount_left == 0 then
        if t.hash != "" then
          admitLoop cfg lows rest
            { st with releaseIds := st.releaseIds ++ [t.hash],
                      released := st.released ++ [t.name] }
        else admitLoop cfg lows rest st
      else if !(checkDiskBudget cfg st.free t.save_path t.amount_left) then
        admitLoop cfg lows rest
          { st with skippedDisk := st.skippedDisk ++ [t.name] }
      else if st.activeLeft + (t.amount_left : Int) ≤ cfg.capacityBytes then
        if t.hash != "" then
          admitLoop cfg lows rest
            { st with
              releaseIds := st.releaseIds ++ [t.hash],
              activeLeft := st.activeLeft + (t.amount_left : Int),
              free := deductDiskBudget cfg t.save_path t.amount_left st.free,
              released := st.released ++ [t.name] }
        else admitLoop cfg lows rest st
      else if cfg.enableSmartSkip then
        admitLoop cfg lows rest { st with skipped := st.skipped ++ [t.name] }
      else st

/-- The Anti-Deadlock Guard's walk (step 7 of the pass): over the same
sorted queue, skip low-space paths, failed disk budgets and empty hashes;
force-release the first remaining candidate (ignoring the capacity cap)
and stop. -/
def antiDeadlock (cfg : Config) (lows : List String) :
    List Torrent → LoopSt → LoopSt
  | [], st => st
  | c :: rest, st =>
      if lowSkip lows c then antiDeadlock cfg lows rest st
      else if !(checkDiskBudget cfg st.free c.save_path c.amount_left) then
        antiDeadlock cfg lows rest st
      else if c.hash == "" then antiDeadlock cfg lows rest st
      else
        { st with
          releaseIds := st.releaseIds ++ [c.hash],
          free := deductDiskBudget cfg c.save_path c.amount_left st.free,
          released := st.released ++ [c.name] }

/-- Everything one scheduling pass emits: the id lists of the issued
stop/start requests (each list is sent iff non-empty; ids are collected
non-empty, matching the falsy-filter in `_stop_torrent_ids` /
`_start_torrent_ids`), the reporting lists, the tracked final
`active_left`, the final virtual ledger, and the snapshot `ts2` the
admission decisions were taken on. -/
structure PassResult where
  diskStops : List String
  overflowStops : List String
  loopReleaseIds : List String
  guardReleaseIds : List String
  releaseIds : List String
  released : List String
  skipped : List String
  skippedDisk : List String
  finalActiveLeft : Int
  finalFree : String → Int
  ts2 : List Torrent

/-- Stage view of one pass: the Overflow Resolver's output on the
snapshot left by the Disk Protection Stage. -/
def passOv (cfg : Config) (free0 : String → Int) (ts0 : List Torrent) :
    OverflowOut :=
  overflowStage cfg (snapAfterDisk cfg free0 ts0)

/-- Stage view of one pass: the sorted admission queue (step 5). -/
def passCands (cfg : Config) (free0 : String → Int) (ts0 : List Torrent) :
    List Torrent :=
  sortPaused cfg (pausedOf (passOv cfg free0 ts0).ts)

/-- Stage view of one pass: the Admission Loop's final state (step 6),
starting from the tracked `active_left` left by the Overflow Resolver
and the freshly sampled ledger. -/
def passSt1 (cfg : Config) (free0 : String → Int) (ts0 : List Torrent) :
    LoopSt :=
  admitLoop cfg (lowSpacePaths cfg free0) (passCands cfg free0 ts0)
    ⟨(passOv cfg free0 ts0).activeLeft, free0, [], [], [], []⟩

/-- Stage view of one pass: the Anti-Deadlock Guard's trigger condition
(step 7): no active torrent, nothing released, a non-empty queue. -/
def passGuardOn (cfg : Config) (free0 : String → Int) (ts0 : List Torrent) :
    Bool :=
  (activesOf (passOv cfg free0 ts0).ts).isEmpty &&
    (passSt1 cfg free0 ts0).released.isEmpty &&
    !(passCands cfg free0 ts0).isEmpty

/-- Stage view of one pass: the state after the Anti-Deadlock Guard. -/
def passSt2 (cfg : Config) (free0 : String → Int) (ts0 : List Torrent) :
    LoopSt :=
  if passGuardOn cfg free0 ts0 then
    antiDeadlock cfg (lowSpacePaths cfg free0) (passCands cfg free0 ts0)
      (passSt1 cfg free0 ts0)
  else passSt1 cfg free0 ts0

/-- One full scheduling pass of `_manage_single_downloader` for one
downloader, over the fetched snapshot `ts0` and the sampled free-space
function `free0`. -/
def runPass (cfg : Config) (free0 : String → Int) (ts0 : List Torrent) :
    PassResult :=
  { diskStops := diskStopIds cfg free0 ts0
    overflowStops := (passOv cfg free0 ts0).stopIds
    loopReleaseIds := (passSt1 cfg free0 ts0).releaseIds
    guardReleaseIds := (passSt2 cfg free0 ts0).releaseIds.drop
      (passSt1 cfg free0 ts0).releaseIds.length
    releaseIds := (passSt2 cfg free0 ts0).releaseIds
    released := (passSt2 cfg free0 ts0).released
    skipped := (passSt2 cfg free0 ts0).skipped
    skippedDisk := (passSt2 cfg free0 ts0).skippedDisk
    finalActiveLeft := (passSt2 cfg free0 ts0).activeLeft
    finalFree := (passSt2 cfg free0 ts0).free
    ts2 := (passOv cfg free0 ts0).ts }

/-- The snapshot left behind by a completed pass: all its suspensions are
already part of `ts2`, and its admissions (the start request) applied by
the idealised collaborator. -/
def postSnapshot (cfg : Config) (free0 : String → Int) (ts0 : List Torrent) :
    List Torrent :=
  applyStarts (runPass cfg free0 ts0).releaseIds (runPass cfg free0 ts0).ts2

/-!
Concrete configurations and snapshots used by scenario claims and
counterexamples.
-/

/-- Number of bytes in `n` GiB (the source multiplies GB values by `1024 ** 3`). -/
def gib (n : Nat) : Nat := n * 1024 ^ 3

/-- A free-space sample for configurations with no monitored directory. -/
def noFree : String → Int := fun _ => 0

/-- The configuration of spec Scenario A: 35 GB cap, `age` priority,
smart skip on, no monitored directories. -/
def scenarioACfg : Config :=
  { capacityBytes := (gib 35 : Nat), priorityMode := "age",
    enableSmartSkip := true, enableLowSpeedTolerance := true,
    lowSpeedThresholdKib := 100, lowSpeedStalledOnly := false,
    downloadPaths := [], minFreeBytes := (gib 5 : Nat) }

/-- Scenario A torrent A: active, 30 GB remaining, added at t=1. -/
def torrentA : Torrent := ⟨"a", "A", "downloading", gib 30, gib 30, 1, "", 0⟩

/-- Scenario A torrent B: paused, 3 GB remaining, added at t=2. -/
def torrentB : Torrent := ⟨"b", "B", "pausedDL", gib 3, gib 3, 2, "", 0⟩

/-- Scenario A torrent C: paused, 10 GB remaining, added at t=3. -/
def torrentC : Torrent := ⟨"c", "C", "pausedDL", gib 10, gib 10, 3, "", 0⟩

/-- Scenario B torrent D: paused, 50 GB remaining. -/
def torrentD : Torrent := ⟨"d", "D", "pausedDL", gib 50, gib 50, 1, "", 0⟩

/-!
Classification facts (claim C9).
-/

/-- No state tag is in both fixed state sets. -/
theorem active_paused_state_disjoint (s : String) (h : isActiveState s = true) :
    isPausedState s = false := by
  simp only [isActiveState, activeStates] at h
  simp at h
  simp only [isPausedState, pausedStates]
  rcases h with h | h | h | h | h | h <;> subst h <;> decide

/-- A `Bool` not equal to `true` is `false`. -/
theorem bool_not_true {b : Bool} (h : ¬ b = true) : b = false := by
  cases b
  · rfl
  · exact absurd rfl h

/-- Claim C9: classification is a pure total function of the state tag —
a torrent is classified `active` iff its tag is in the fixed active set,
`paused` iff its tag is in the fixed paused set, and any other tag is
`ignored`; the `active_torrents` / `paused_torrents` sublists of a
snapshot are exactly the torrents classified `active` / `paused`, so each
torrent receives exactly one of the three classifications per snapshot
and unrecognized tags fall into none of the scheduling pools. -/
theorem claim_C9_classifier :
    (∀ s : String,
      (classifyState s = TClass.active ↔ isActiveState s = true) ∧
      (classifyState s = TClass.paused ↔ isPausedState s = true) ∧
      (classifyState s = TClass.ignored ↔
        (isActiveState s = false ∧ isPausedState s = false))) ∧
    (∀ (ts : List Torrent) (t : Torrent),
      (t ∈ activesOf ts ↔ t ∈ ts ∧ classifyState t.state = TClass.active) ∧
      (t ∈ pausedOf ts ↔ t ∈ ts ∧ classifyState t.state = TClass.paused)) := by
  have hclass : ∀ s : String,
      (classifyState s = TClass.active ↔ isActiveState s = true) ∧
      (classifyState s = TClass.paused ↔ isPausedState s = true) ∧
      (classifyState s = TClass.ignored ↔
        (isActiveState s = false ∧ isPausedState s = false)) := by
    intro s
    by_cases h1 : isActiveState s = true
    · have h2 := active_paused_state_disjoint s h1
      simp [classifyState, h1, h2]
    · have h1' := bool_not_true h1
      by_cases h2 : isPausedState s = true
      · simp [classifyState, h1', h2]
      · have h2' := bool_not_true h2
        simp [classifyState, h1', h2']
  refine ⟨hclass, ?_⟩
  intro ts t
  constructor
  · rw [activesOf, List.mem_filter, (hclass t.state).1]
  · rw [pausedOf, List.mem_filter, (hclass t.state).2.1]

/-!
Scenario A (claim C6).
-/

/-- Claim C6: on Scenario A (cap 35 GB, Active = [A: 30 GB, t=1],
Paused = [B: 3 GB, t=2; C: 10 GB, t=3], `age` mode), with smart skip on
the pass admits exactly B, records C as size-skipped, ends with tracked
`active_left` = 33 GB and leaves C paused; with smart skip off the scan
stops at the first over-capacity candidate, so nothing is recorded as
size-skipped (and only B is admitted). -/
theorem claim_C6_scenarioA :
    (runPass scenarioACfg noFree [torrentA, torrentB, torrentC]).releaseIds = ["b"] ∧
    (runPass scenarioACfg noFree [torrentA, torrentB, torrentC]).skipped = ["C"] ∧
    (runPass scenarioACfg noFree [torrentA, torrentB, torrentC]).skippedDisk = [] ∧
    (runPass scenarioACfg noFree [torrentA, torrentB, torrentC]).finalActiveLeft =
      ((gib 33 : Nat) : Int) ∧
    postSnapshot scenarioACfg noFree [torrentA, torrentB, torrentC] =
      [torrentA, { torrentB with state := "downloading" }, torrentC] ∧
    (runPass { scenarioACfg with enableSmartSkip := false } noFree
        [torrentA, torrentB, torrentC]).releaseIds = ["b"] ∧
    (runPass { scenarioACfg with enableSmartSkip := false } noFree
        [torrentA, torrentB, torrentC]).skipped = [] := by
  decide

/-!
Counterexamples and the corrected disk-budget characterisation.
-/

/-- Torrent E of the C5/C2 counterexamples: a paused candidate whose
snapshot entry has no hash. -/
def torrentE : Torrent := ⟨"", "E", "pausedDL", gib 50, gib 50, 1, "", 0⟩

/-- Torrent D2: like Scenario B's D but added after E. -/
def torrentD2 : Torrent := ⟨"d", "D", "pausedDL", gib 50, gib 50, 2, "", 0⟩

/-- The Anti-Deadlock Guard's eligibility test exactly as claim C5 words
it (first candidate "not under a low path" that "passes the disk-budget
check") — with no condition on the candidate's id. -/
def specGuardEligible (cfg : Config) (lows : List String)
    (free : String → Int) (c : Torrent) : Bool :=
  !(isPathUnderPaths c.save_path lows) &&
    checkDiskBudget cfg free c.save_path c.amount_left

/-- Counterexample to claim C5 as stated: with Paused =
[E: no id, 50 GB, t=1; D: id "d", 50 GB, t=2] and cap 35 GB, E is the
first candidate of the sorted queue that is not under a low path and
passes the disk-budget check, yet the guard does not admit E (it cannot
be started: it has no id) — it admits D instead, and the pass leaves E
paused. -/
theorem claim_C5_counterexample :
    (sortPaused scenarioACfg
        (pausedOf (runPass scenarioACfg noFree [torrentE, torrentD2]).ts2)).find?
        (specGuardEligible scenarioACfg
          (lowSpacePaths scenarioACfg noFree) noFree) = some torrentE ∧
    torrentE.hash = "" ∧
    (runPass scenarioACfg noFree [torrentE, torrentD2]).guardReleaseIds = ["d"] ∧
    postSnapshot scenarioACfg noFree [torrentE, torrentD2] =
      [torrentE, { torrentD2 with state := "downloading" }] := by
  decide

/-- Counterexample to claim C2 as stated: a single paused candidate with
no id, within capacity, not under any low path and passing the disk
check.  The Paused queue is non-empty and the Active set is empty
entering the Admission Loop, the candidate does not fail the disk check,
yet the Active set is still empty after the pass (no start request can be
issued for an id-less torrent). -/
theorem claim_C2_counterexample :
    activesOf (runPass scenarioACfg noFree [torrentE]).ts2 = [] ∧
    pausedOf (runPass scenarioACfg noFree [torrentE]).ts2 = [torrentE] ∧
    lowSkip (lowSpacePaths scenarioACfg noFree) torrentE = false ∧
    checkDiskBudget scenarioACfg noFree torrentE.save_path
      torrentE.amount_left = true ∧
    (runPass scenarioACfg noFree [torrentE]).releaseIds = [] ∧
    activesOf (postSnapshot scenarioACfg noFree [torrentE]) = [] := by
  decide

/-- Counterexample to claim C4 as stated: Scenario B's pass force-admits
D (50 GB > cap 35 GB) through the Anti-Deadlock Guard; re-running a pass
on the exact snapshot that pass left behind (D active, nothing else
changed) is not a fixed point — the second pass issues a suspend request
for D through the Overflow Resolver (and then force-admits it again). -/
theorem claim_C4_counterexample :
    (runPass scenarioACfg noFree [torrentD]).releaseIds = ["d"] ∧
    postSnapshot scenarioACfg noFree [torrentD] =
      [{ torrentD with state := "downloading" }] ∧
    (runPass scenarioACfg noFree
        (postSnapshot scenarioACfg noFree [torrentD])).overflowStops = ["d"] ∧
    (runPass scenarioACfg noFree
        (postSnapshot scenarioACfg noFree [torrentD])).releaseIds = ["d"] := by
  decide

/-- The monitored-path matching rule exactly as claim C8 words it: the
first configured path `p` with `storagePath == p` or
`storagePath.startsWith(p + "/")` — without the `rstrip("/")`
normalisation the source applies. -/
def claimMatchPathLiteral (cfg : Config) (save_path : String) : Option String :=
  cfg.downloadPaths.find? (fun p =>
    save_path == p || strStartsWith save_path (p ++ "/"))

/-- The configuration of the C8 counterexample: one monitored path with a
trailing slash. -/
def trailingSlashCfg : Config :=
  { capacityBytes := 100, priorityMode := "age", enableSmartSkip := true,
    enableLowSpeedTolerance := false, lowSpeedThresholdKib := 0,
    lowSpeedStalledOnly := false, downloadPaths := ["/d/"], minFreeBytes := 0 }

/-- Counterexample to claim C8 as stated: with the monitored path `"/d/"`
(trailing slash), the path `"/d/x"` matches no monitored path under the
claim's matching rule (`storagePath == p || storagePath.startsWith(p + "/")`),
so the claim requires `canAdmit` to be true — but the source normalises
the configured path with `rstrip("/")`, matches `"/d/x"` against `"/d/"`,
and returns false for a 1-byte request against 0 free bytes. -/
theorem claim_C8_counterexample :
    trailingSlashCfg.downloadPaths ≠ [] ∧
    claimMatchPathLiteral trailingSlashCfg "/d/x" = none ∧
    checkDiskBudget trailingSlashCfg (fun _ => 0) "/d/x" 1 = false := by
  decide

/-- Claim C8 as amended: `canAdmit` is true iff no directory is
monitored, or the storage path is empty, or it matches no monitored path,
or the matched path's virtual free space minus the request stays at or
above the floor — where the matched path is the first configured `p` with
`storagePath == p` or `storagePath.startsWith(p.rstrip("/") + "/")`. -/
theorem claim_C8_amended (cfg : Config) (free : String → Int)
    (save_path : String) (needed : Nat) :
    checkDiskBudget cfg free save_path needed = true ↔
      (cfg.downloadPaths = [] ∨ save_path = "" ∨
        cfg.downloadPaths.find? (fun dp =>
          save_path == dp || strStartsWith save_path (rstripSlashes dp ++ "/")) = none ∨
        ∃ p, cfg.downloadPaths.find? (fun dp =>
            save_path == dp || strStartsWith save_path (rstripSlashes dp ++ "/")) = some p ∧
          free p - (needed : Int) ≥ cfg.minFreeBytes) := by
  unfold checkDiskBudget matchDownloadPath
  by_cases hemp : cfg.downloadPaths = []
  · simp [hemp]
  · have hemp' : cfg.downloadPaths.isEmpty = false := by
      simpa [List.isEmpty_iff] using hemp
    by_cases hsave : save_path = ""
    · simp [hemp, hemp', hsave]
    · have hsave' : (save_path == "") = false := by
        simpa using hsave
      rcases hfind : cfg.downloadPaths.find? (fun dp =>
          save_path == dp || strStartsWith save_path (rstripSlashes dp ++ "/")) with _ | p
      · simp [hemp, hemp', hsave, hsave', hfind]
      · simp [hemp, hemp', hsave, hsave', hfind]

/-!
Stable-sort lemmas and the Overflow Resolver walk characterisation.
-/

/-- Unfolding of `sumLeft` on `[]`. -/
theorem sumLeft_nil : sumLeft [] = 0 := rfl

/-- Unfolding of `sumLeft` on a cons. -/
theorem sumLeft_cons (t : Torrent) (l : List Torrent) :
    sumLeft (t :: l) = (t.amount_left : Int) + sumLeft l := by
  simp [sumLeft]

/-- `sumLeft` over an append. -/
theorem sumLeft_append (l1 l2 : List Torrent) :
    sumLeft (l1 ++ l2) = sumLeft l1 + sumLeft l2 := by
  simp [sumLeft]

/-- `sumLeft` is non-negative. -/
theorem sumLeft_nonneg (l : List Torrent) : 0 ≤ sumLeft l := by
  induction l with
  | nil => simp [sumLeft]
  | cons t l ih => rw [sumLeft_cons]; positivity

/-- `insertR` permutes the element onto the list. -/
theorem insertR_perm (r : Torrent → Torrent → Bool) (a : Torrent)
    (l : List Torrent) : (insertR r a l).Perm (a :: l) := by
  induction l with
  | nil => simp [insertR]
  | cons b l ih =>
      rw [insertR]
      by_cases h : r a b = true
      · simp [h]
      · have h' : r a b = false := bool_not_true h
        simp only [h', Bool.false_eq_true, if_false]
        exact (ih.cons b).trans (List.Perm.swap a b l)

/-- `sortR` permutes its input. -/
theorem sortR_perm (r : Torrent → Torrent → Bool) (l : List Torrent) :
    (sortR r l).Perm l := by
  induction l with
  | nil => simp [sortR]
  | cons a l ih => exact (insertR_perm r a (sortR r l)).trans (ih.cons a)

/-- Membership in an `insertR` result. -/
theorem mem_insertR {r : Torrent → Torrent → Bool} {a x : Torrent}
    {l : List Torrent} (h : x ∈ insertR r a l) : x = a ∨ x ∈ l := by
  have := (insertR_perm r a l).mem_iff.mp h
  simpa using this

/-- `insertR` preserves `Pairwise` sortedness for a total transitive
Boolean relation. -/
theorem insertR_pairwise {r : Torrent → Torrent → Bool}
    (htot : ∀ a b, r a b = false → r b a = true)
    (htrans : ∀ a b c, r a b = true → r b c = true → r a c = true)
    (a : Torrent) {l : List Torrent}
    (h : l.Pairwise (fun x y => r x y = true)) :
    (insertR r a l).Pairwise (fun x y => r x y = true) := by
  induction l with
  | nil => simp [insertR]
  | cons b l ih =>
      obtain ⟨hb, hl⟩ := List.pairwise_cons.mp h
      rw [insertR]
      by_cases hr : r a b = true
      · rw [if_pos hr]
        refine List.pairwise_cons.mpr ⟨?_, h⟩
        intro x hx
        rcases List.mem_cons.mp hx with rfl | hx
        · exact hr
        · exact htrans a b x hr (hb x hx)
      · have hr' : r a b = false := bool_not_true hr
        simp only [hr', Bool.false_eq_true, if_false]
        refine List.pairwise_cons.mpr ⟨?_, ih hl⟩
        intro x hx
        rcases mem_insertR hx with rfl | hx
        · exact htot x b hr'
        · exact hb x hx

/-- `sortR` sorts by a total transitive Boolean relation. -/
theorem sortR_pairwise {r : Torrent → Torrent → Bool}
    (htot : ∀ a b, r a b = false → r b a = true)
    (htrans : ∀ a b c, r a b = true → r b c = true → r a c = true)
    (l : List Torrent) :
    (sortR r l).Pairwise (fun x y => r x y = true) := by
  induction l with
  | nil => simp [sortR]
  | cons a l ih => exact insertR_pairwise htot htrans a ih

/-- When low-speed tolerance is off or the threshold is non-positive, no
torrent tests as low-speed. -/
theorem isLowSpeedTorrent_false_of_disabled {cfg : Config}
    (h : (cfg.enableLowSpeedTolerance &&
      decide (cfg.lowSpeedThresholdKib > 0)) = false) (t : Torrent) :
    isLowSpeedTorrent cfg t = false := by
  rw [Bool.and_eq_false_iff] at h
  rcases h with h | h
  · simp [isLowSpeedTorrent, h]
  · have h' : cfg.lowSpeedThresholdKib ≤ 0 := by
      have := of_decide_eq_false h
      omega
    simp [isLowSpeedTorrent, h']

/-- Characterisation of the Overflow Resolver's suspension walk: there is
a processed length `k` such that the issued stop ids are exactly the
non-empty hashes of the first `k` candidates, the final tracked
`active_left` is the initial one minus the remaining bytes of exactly
those suspended candidates, the walk ends only by reaching the cap or
exhausting the candidates, and before each processed candidate the
tracked `active_left` still exceeded the cap. -/
theorem overflowWalk_spec (cap : Int) (cands : List Torrent) (init : Int) :
    ∃ k ≤ cands.length,
      (overflowWalk cap cands init).1 =
        ((cands.take k).filter (fun t => t.hash != "")).map (fun t => t.hash) ∧
      (overflowWalk cap cands init).2 =
        init - sumLeft ((cands.take k).filter (fun t => t.hash != "")) ∧
      ((overflowWalk cap cands init).2 ≤ cap ∨ k = cands.length) ∧
      ∀ j < k,
        init - sumLeft ((cands.take j).filter (fun t => t.hash != "")) > cap := by
  induction cands generalizing init with
  | nil =>
      refine ⟨0, Nat.le_refl 0, ?_, ?_, Or.inr rfl, ?_⟩
      · simp [overflowWalk]
      · simp [overflowWalk, sumLeft_nil]
      · intro j hj; omega
  | cons t rest ih =>
      by_cases hle : init ≤ cap
      · refine ⟨0, Nat.zero_le _, ?_, ?_, Or.inl ?_, ?_⟩
        · simp [overflowWalk, hle]
        · simp [overflowWalk, hle, sumLeft_nil]
        · simp [overflowWalk, hle]
        · intro j hj; omega
      · by_cases hh : t.hash == ""
        · obtain ⟨k, hk, h1, h2, h3, h4⟩ := ih init
          have hwalk : overflowWalk cap (t :: rest) init =
              overflowWalk cap rest init := by
            simp [overflowWalk, hle, hh]
          have hne : (t.hash != "") = false := by
            simpa [bne] using hh
          refine ⟨k + 1, by simpa using Nat.succ_le_succ hk, ?_, ?_, ?_, ?_⟩
          · rw [hwalk, h1, List.take_succ_cons, List.filter_cons]
            simp [hne]
          · rw [hwalk, h2, List.take_succ_cons, List.filter_cons]
            simp [hne]
          · rw [hwalk]
            rcases h3 with h3 | h3
            · exact Or.inl h3
            · exact Or.inr (by simp [h3])
          · intro j hj
            cases j with
            | zero => simpa [sumLeft_nil] using lt_of_not_ge hle
            | succ j =>
                rw [List.take_succ_cons, List.filter_cons]
                simp only [hne, Bool.false_eq_true, if_false]
                exact h4 j (Nat.lt_of_succ_lt_succ hj)
        · obtain ⟨k, hk, h1, h2, h3, h4⟩ := ih (init - (t.amount_left : Int))
          have hne : (t.hash != "") = true := by
            simpa [bne] using hh
          have hwalk : overflowWalk cap (t :: rest) init =
              (t.hash :: (overflowWalk cap rest (init - (t.amount_left : Int))).1,
               (overflowWalk cap rest (init - (t.amount_left : Int))).2) := by
            simp [overflowWalk, hle, hh]
          refine ⟨k + 1, by simpa using Nat.succ_le_succ hk, ?_, ?_, ?_, ?_⟩
          · rw [hwalk, List.take_succ_cons, List.filter_cons]
            simp only [hne, if_true, List.map_cons]
            simpa using h1
          · rw [hwalk, List.take_succ_cons, List.filter_cons]
            simp only [hne, if_true, sumLeft_cons]
            rw [h2]; ring
          · rw [hwalk]
            rcases h3 with h3 | h3
            · exact Or.inl h3
            · exact Or.inr (by simp [h3])
          · intro j hj
            cases j with
            | zero => simpa [sumLeft_nil] using lt_of_not_ge hle
            | succ j =>
                rw [List.take_succ_cons, List.filter_cons]
                simp only [hne, if_true, sumLeft_cons]
                have := h4 j (Nat.lt_of_succ_lt_succ hj)
                omega

/-- Claim C7: whenever the Overflow Resolver runs, its candidate order is
the active torrents stably sorted by `added_on` descending with (under
low-speed tolerance — and equivalently always, since with tolerance off
no torrent tests low-speed) all normal-speed candidates placed before all
low-speed candidates, each group keeping that newest-first order; the
walk then suspends candidates one at a time from the front, decrementing
the tracked `active_left` by each suspended torrent's `amount_left`, and
stops exactly when the tracked `active_left` reaches the cap or the
candidates are exhausted. -/
theorem claim_C7_overflow_resolver (cfg : Config) (actives : List Torrent)
    (init : Int) :
    (overflowCandidates cfg actives =
      (sortR (fun a b => decide (b.added_on ≤ a.added_on)) actives).filter
        (fun t => !(isLowSpeedTorrent cfg t)) ++
      (sortR (fun a b => decide (b.added_on ≤ a.added_on)) actives).filter
        (fun t => isLowSpeedTorrent cfg t)) ∧
    (sortR (fun a b => decide (b.added_on ≤ a.added_on)) actives).Perm actives ∧
    (sortR (fun a b => decide (b.added_on ≤ a.added_on)) actives).Pairwise
      (fun x y => y.added_on ≤ x.added_on) ∧
    ∃ k ≤ (overflowCandidates cfg actives).length,
      (overflowWalk cfg.capacityBytes (overflowCandidates cfg actives) init).1 =
        (((overflowCandidates cfg actives).take k).filter
          (fun t => t.hash != "")).map (fun t => t.hash) ∧
      (overflowWalk cfg.capacityBytes (overflowCandidates cfg actives) init).2 =
        init - sumLeft (((overflowCandidates cfg actives).take k).filter
          (fun t => t.hash != "")) ∧
      ((overflowWalk cfg.capacityBytes (overflowCandidates cfg actives) init).2 ≤
          cfg.capacityBytes ∨
        k = (overflowCandidates cfg actives).length) ∧
      ∀ j < k,
        init - sumLeft (((overflowCandidates cfg actives).take j).filter
          (fun t => t.hash != "")) > cfg.capacityBytes := by
  refine ⟨?_, sortR_perm _ _, ?_, overflowWalk_spec _ _ _⟩
  · unfold overflowCandidates
    by_cases hon : (cfg.enableLowSpeedTolerance &&
        decide (cfg.lowSpeedThresholdKib > 0)) = true
    · simp only [hon, if_true, List.partition_eq_filter_filter]
      rfl
    · have hon' := bool_not_true hon
      have hfalse := isLowSpeedTorrent_false_of_disabled hon'
      simp only [hon', Bool.false_eq_true, if_false]
      have h1 : (sortR (fun a b => decide (b.added_on ≤ a.added_on))
          actives).filter (fun t => !(isLowSpeedTorrent cfg t)) =
          sortR (fun a b => decide (b.added_on ≤ a.added_on)) actives := by
        apply List.filter_eq_self.mpr
        intro t _
        simp [hfalse t]
      have h2 : (sortR (fun a b => decide (b.added_on ≤ a.added_on))
          actives).filter (fun t => isLowSpeedTorrent cfg t) = [] := by
        apply List.filter_eq_nil_iff.mpr
        intro t _
        simp [hfalse t]
      rw [h1, h2, List.append_nil]
  · have := sortR_pairwise (r := fun a b => decide (b.added_on ≤ a.added_on))
      (fun a b h => by
        simp only [decide_eq_false_iff_not, not_le] at h
        simp only [decide_eq_true_eq]
        omega)
      (fun a b c h1 h2 => by
        simp only [decide_eq_true_eq] at h1 h2 ⊢
        omega)
      actives
    exact this.imp (fun h => by simpa using h)

/-!
Capacity invariant (claim C1).
-/

/-- `sumLeft` is invariant under permutation. -/
theorem sumLeft_perm {l l' : List Torrent} (h : l.Perm l') :
    sumLeft l = sumLeft l' := by
  unfold sumLeft
  exact (h.map (fun t => (t.amount_left : Int))).sum_eq

/-- `sumLeft` is monotone along sublists. -/
theorem sumLeft_sublist_le {l l' : List Torrent} (h : l.Sublist l') :
    sumLeft l ≤ sumLeft l' := by
  induction h with
  | slnil => simp [sumLeft_nil]
  | cons t _ ih =>
      rw [sumLeft_cons]
      have hnn : (0 : Int) ≤ (t.amount_left : Int) := Int.ofNat_nonneg _
      omega
  | cons₂ t _ ih =>
      rw [sumLeft_cons, sumLeft_cons]
      omega

/-- Splitting `sumLeft` along a Boolean filter. -/
theorem sumLeft_filter_split (p : Torrent → Bool) (l : List Torrent) :
    sumLeft (l.filter p) + sumLeft (l.filter (fun t => !(p t))) = sumLeft l := by
  induction l with
  | nil => simp [sumLeft_nil]
  | cons t l ih =>
      by_cases hp : p t = true
      · simp only [List.filter_cons, hp, Bool.not_true, if_true,
          Bool.false_eq_true, if_false, sumLeft_cons]
        omega
      · have hp' := bool_not_true hp
        simp only [List.filter_cons, hp', Bool.not_false, if_true,
          Bool.false_eq_true, if_false, sumLeft_cons]
        omega

/-- The active torrents remaining after a stop request are exactly the
previously active torrents whose hash is not among the stopped ids. -/
theorem activesOf_applyStops (ids : List String) (ts : List Torrent) :
    activesOf (applyStops ids ts) =
      (activesOf ts).filter (fun t => !(decide (t.hash ∈ ids))) := by
  unfold activesOf applyStops
  rw [List.filter_map, List.filter_filter]
  have hstop : isActiveState "stoppedDL" = false := by decide
  have hfun : ((fun (t : Torrent) => isActiveState t.state) ∘
      (fun (t : Torrent) =>
        if t.hash ∈ ids then { t with state := "stoppedDL" } else t)) =
      (fun (t : Torrent) => !(decide (t.hash ∈ ids)) && isActiveState t.state) := by
    funext t
    by_cases hm : t.hash ∈ ids
    · simp [Function.comp, hm, hstop]
    · simp [Function.comp, hm]
  rw [hfun]
  have hid : ∀ t ∈ ts.filter
      (fun (t : Torrent) => !(decide (t.hash ∈ ids)) && isActiveState t.state),
      (if t.hash ∈ ids then { t with state := "stoppedDL" } else t) = t := by
    intro t ht
    rw [List.mem_filter] at ht
    have hnm : ¬ t.hash ∈ ids := by
      have h2 := ht.2
      simp only [Bool.and_eq_true, Bool.not_eq_true', decide_eq_false_iff_not] at h2
      exact h2.1
    simp [hnm]
  conv_rhs => rw [← List.map_id (ts.filter
    (fun (t : Torrent) => !(decide (t.hash ∈ ids)) && isActiveState t.state))]
  exact List.map_congr_left hid

/-- The paused torrents after a stop request: every previously paused
torrent stays paused, and every stopped torrent is paused. -/
theorem pausedOf_applyStops (ids : List String) (ts : List Torrent) :
    pausedOf (applyStops ids ts) =
      (ts.filter (fun t => decide (t.hash ∈ ids) || isPausedState t.state)).map
        (fun t => if t.hash ∈ ids then { t with state := "stoppedDL" } else t) := by
  unfold pausedOf applyStops
  rw [List.filter_map]
  have hstop : isPausedState "stoppedDL" = true := by decide
  congr 1
  apply List.filter_congr
  intro t _
  by_cases hm : t.hash ∈ ids
  · simp [Function.comp, hm, hstop]
  · simp [Function.comp, hm]

/-- Suspending a sub-multiset `S` of the active torrents (by their
non-empty hashes) leaves at most `sumLeft actives - sumLeft S` active
bytes behind. -/
theorem stops_sum_le {ts1 cands S : List Torrent}
    (hperm : cands.Perm (activesOf ts1)) (hS : S.Sublist cands) :
    sumLeft (activesOf (applyStops (S.map (fun t => t.hash)) ts1)) ≤
      sumLeft (activesOf ts1) - sumLeft S := by
  have hsplit := sumLeft_filter_split
    (fun t => decide (t.hash ∈ S.map (fun t => t.hash))) (activesOf ts1)
  rw [activesOf_applyStops]
  have hSle : sumLeft S ≤
      sumLeft ((activesOf ts1).filter
        (fun t => decide (t.hash ∈ S.map (fun t => t.hash)))) := by
    have hself : S.filter
        (fun t => decide (t.hash ∈ S.map (fun t => t.hash))) = S := by
      apply List.filter_eq_self.mpr
      intro s hs
      simpa using List.mem_map_of_mem (fun t => t.hash) hs
    have hsub : (S.filter
        (fun t => decide (t.hash ∈ S.map (fun t => t.hash)))).Sublist
        (cands.filter (fun t => decide (t.hash ∈ S.map (fun t => t.hash)))) :=
      hS.filter _
    rw [hself] at hsub
    calc sumLeft S ≤
        sumLeft (cands.filter
          (fun t => decide (t.hash ∈ S.map (fun t => t.hash)))) :=
          sumLeft_sublist_le hsub
      _ = sumLeft ((activesOf ts1).filter
          (fun t => decide (t.hash ∈ S.map (fun t => t.hash)))) :=
          sumLeft_perm (hperm.filter _)
  omega

/-- The `active_left` tracked by the Overflow Resolver equals the active
remainder of the snapshot it hands to the admission stage, or the walk
ended above the cap (which can only happen by exhausting the candidates). -/
theorem overflowStage_le_or (cfg : Config) (ts1 : List Torrent) :
    (overflowStage cfg ts1).activeLeft ≤ cfg.capacityBytes ∨
    (overflowWalk cfg.capacityBytes (overflowCandidates cfg (activesOf ts1))
      (sumLeft (activesOf ts1))).2 > cfg.capacityBytes := by
  unfold overflowStage
  by_cases htrig : sumLeft (activesOf ts1) > cfg.capacityBytes
  · rw [if_pos htrig]
    by_cases hfin : (overflowWalk cfg.capacityBytes
        (overflowCandidates cfg (activesOf ts1))
        (sumLeft (activesOf ts1))).2 ≤ cfg.capacityBytes
    · left
      obtain ⟨k, _, h1, h2, _, _⟩ := overflowWalk_spec cfg.capacityBytes
        (overflowCandidates cfg (activesOf ts1)) (sumLeft (activesOf ts1))
      by_cases hids : (overflowWalk cfg.capacityBytes
          (overflowCandidates cfg (activesOf ts1))
          (sumLeft (activesOf ts1))).1.isEmpty
      · simpa [hids] using hfin
      · simp only [hids, Bool.false_eq_true, if_false]
        have hcperm : (overflowCandidates cfg (activesOf ts1)).Perm
            (activesOf ts1) := by
          have hsplit := List.filter_append_perm
            (fun t => !(isLowSpeedTorrent cfg t))
            (sortR (fun a b => decide (b.added_on ≤ a.added_on)) (activesOf ts1))
          have hC := (claim_C7_overflow_resolver cfg (activesOf ts1) 0).1
          rw [hC]
          have hnn : (sortR (fun a b => decide (b.added_on ≤ a.added_on))
              (activesOf ts1)).filter (fun t => !(!(isLowSpeedTorrent cfg t))) =
              (sortR (fun a b => decide (b.added_on ≤ a.added_on))
              (activesOf ts1)).filter (fun t => isLowSpeedTorrent cfg t) := by
            apply List.filter_congr
            intro t _
            simp
          rw [← hnn]
          exact hsplit.trans (sortR_perm _ _)
        have hle := stops_sum_le (S := ((overflowCandidates cfg
            (activesOf ts1)).take k).filter (fun t => t.hash != ""))
          hcperm
          (((overflowCandidates cfg (activesOf ts1)).take k).filter_sublist.trans
            (List.take_sublist k _))
        rw [← h1] at hle
        calc sumLeft (activesOf (applyStops (overflowWalk cfg.capacityBytes
              (overflowCandidates cfg (activesOf ts1))
              (sumLeft (activesOf ts1))).1 ts1)) ≤
            sumLeft (activesOf ts1) - sumLeft (((overflowCandidates cfg
              (activesOf ts1)).take k).filter (fun t => t.hash != "")) := hle
          _ = (overflowWalk cfg.capacityBytes
              (overflowCandidates cfg (activesOf ts1))
              (sumLeft (activesOf ts1))).2 := h2.symm
          _ ≤ cfg.capacityBytes := hfin
    · right
      exact lt_of_not_ge hfin
  · left
    rw [if_neg htrig]
    exact le_of_not_gt htrig

/-- The Admission Loop never raises the tracked `active_left` above the
capacity when it starts at or below it. -/
theorem admitLoop_activeLeft_le (cfg : Config) (lows : List String)
    (cands : List Torrent) (st : LoopSt)
    (h : st.activeLeft ≤ cfg.capacityBytes) :
    (admitLoop cfg lows cands st).activeLeft ≤ cfg.capacityBytes := by
  induction cands generalizing st with
  | nil => simpa [admitLoop] using h
  | cons t rest ih =>
      rw [admitLoop]
      split_ifs with h1 h2 h3 h4 h5 h6 h7 <;>
        first
          | exact ih _ h
          | exact ih _ h5
          | exact h

/-- The Anti-Deadlock Guard never changes the tracked `active_left`. -/
theorem antiDeadlock_activeLeft (cfg : Config) (lows : List String)
    (cands : List Torrent) (st : LoopSt) :
    (antiDeadlock cfg lows cands st).activeLeft = st.activeLeft := by
  induction cands generalizing st with
  | nil => simp [antiDeadlock]
  | cons c rest ih =>
      rw [antiDeadlock]
      split_ifs <;> first | exact ih _ | rfl

/-- Claim C1: after any pass, the tracked final `active_left` is at most
the configured capacity, unless the Overflow Resolver's walk ended above
the cap — which only happens when it exhausted its suspension candidates
without being able to reduce `active_left` further (the walk stops early
only upon reaching the cap). -/
theorem claim_C1_capacity_invariant (cfg : Config) (free0 : String → Int)
    (ts0 : List Torrent) :
    (runPass cfg free0 ts0).finalActiveLeft ≤ cfg.capacityBytes ∨
    (overflowWalk cfg.capacityBytes
      (overflowCandidates cfg (activesOf (snapAfterDisk cfg free0 ts0)))
      (sumLeft (activesOf (snapAfterDisk cfg free0 ts0)))).2 >
      cfg.capacityBytes := by
  rcases overflowStage_le_or cfg (snapAfterDisk cfg free0 ts0) with hle | hgt
  · left
    have h1 : (passSt1 cfg free0 ts0).activeLeft ≤ cfg.capacityBytes :=
      admitLoop_activeLeft_le cfg _ _ _ hle
    show (passSt2 cfg free0 ts0).activeLeft ≤ cfg.capacityBytes
    unfold passSt2
    split
    · rw [antiDeadlock_activeLeft]; exact h1
    · exact h1
  · right
    exact hgt

/-!
Admission Loop and Anti-Deadlock Guard characterisations.
-/

/-- The admitted torrents of one Admission Loop run: a sublist `S` of the
scanned queue, each with a non-empty hash and not skipped for low space,
whose hashes (in order) extend the release ids, whose names extend the
released names, and whose remaining bytes raise the tracked
`active_left`; the ledger is untouched when nothing was admitted. -/
theorem admitLoop_spec (cfg : Config) (lows : List String)
    (cands : List Torrent) (st : LoopSt) :
    ∃ S : List Torrent, S.Sublist cands ∧
      (∀ s ∈ S, (s.hash != "") = true) ∧
      (∀ s ∈ S, lowSkip lows s = false) ∧
      (admitLoop cfg lows cands st).releaseIds =
        st.releaseIds ++ S.map (fun t => t.hash) ∧
      (admitLoop cfg lows cands st).released =
        st.released ++ S.map (fun t => t.name) ∧
      (admitLoop cfg lows cands st).activeLeft = st.activeLeft + sumLeft S ∧
      (S = [] → (admitLoop cfg lows cands st).free = st.free) := by
  induction cands generalizing st with
  | nil =>
      exact ⟨[], List.Sublist.refl _, by simp, by simp, by simp [admitLoop],
        by simp [admitLoop], by simp [admitLoop, sumLeft_nil],
        fun _ => by simp [admitLoop]⟩
  | cons t rest ih =>
      rw [admitLoop]
      split_ifs with h1 h2 h3 h4 h5 h6 h7
      · -- low-space skip
        obtain ⟨S, hsub, hh, hl, hrel, hreln, hact, hfree⟩ := ih st
        exact ⟨S, hsub.cons t, hh, hl, hrel, hreln, hact, hfree⟩
      · -- finished torrent with a hash: unconditional release
        obtain ⟨S, hsub, hh, hl, hrel, hreln, hact, hfree⟩ := ih
          { st with releaseIds := st.releaseIds ++ [t.hash],
                    released := st.released ++ [t.name] }
        have hzero : t.amount_left = 0 := by simpa using h2
        refine ⟨t :: S, hsub.cons₂ t, ?_, ?_, ?_, ?_, ?_, ?_⟩
        · intro s hs
          rcases List.mem_cons.mp hs with rfl | hs
          · exact h3
          · exact hh s hs
        · intro s hs
          rcases List.mem_cons.mp hs with rfl | hs
          · exact bool_not_true h1
          · exact hl s hs
        · rw [hrel]; simp
        · rw [hreln]; simp
        · rw [hact, sumLeft_cons, hzero]; simp
        · intro h; cases h
      · -- finished torrent without a hash: nothing to do
        obtain ⟨S, hsub, hh, hl, hrel, hreln, hact, hfree⟩ := ih st
        exact ⟨S, hsub.cons t, hh, hl, hrel, hreln, hact, hfree⟩
      · -- disk budget insufficient: record and continue
        obtain ⟨S, hsub, hh, hl, hrel, hreln, hact, hfree⟩ := ih
          { st with skippedDisk := st.skippedDisk ++ [t.name] }
        exact ⟨S, hsub.cons t, hh, hl, hrel, hreln, hact, hfree⟩
      · -- within capacity, hash present: admit
        obtain ⟨S, hsub, hh, hl, hrel, hreln, hact, hfree⟩ := ih
          { st with
            releaseIds := st.releaseIds ++ [t.hash],
            activeLeft := st.activeLeft + (t.amount_left : Int),
            free := deductDiskBudget cfg t.save_path t.amount_left st.free,
            released := st.released ++ [t.name] }
        refine ⟨t :: S, hsub.cons₂ t, ?_, ?_, ?_, ?_, ?_, ?_⟩
        · intro s hs
          rcases List.mem_cons.mp hs with rfl | hs
          · exact h6
          · exact hh s hs
        · intro s hs
          rcases List.mem_cons.mp hs with rfl | hs
          · exact bool_not_true h1
          · exact hl s hs
        · rw [hrel]; simp
        · rw [hreln]; simp
        · rw [hact, sumLeft_cons]; simp; ring
        · intro h; cases h
      · -- within capacity but no hash: nothing to do
        obtain ⟨S, hsub, hh, hl, hrel, hreln, hact, hfree⟩ := ih st
        exact ⟨S, hsub.cons t, hh, hl, hrel, hreln, hact, hfree⟩
      · -- over capacity, smart skip: record and continue
        obtain ⟨S, hsub, hh, hl, hrel, hreln, hact, hfree⟩ := ih
          { st with skipped := st.skipped ++ [t.name] }
        exact ⟨S, hsub.cons t, hh, hl, hrel, hreln, hact, hfree⟩
      · -- over capacity, no smart skip: stop scanning
        exact ⟨[], List.nil_sublist _, by simp, by simp, by simp, by simp,
          by simp [sumLeft_nil], fun _ => rfl⟩

/-- The Anti-Deadlock Guard either force-releases exactly the first
candidate with a non-empty hash that is neither skipped for low space nor
failing the disk budget (evaluated against the guard-time ledger, which
its walk never changes), or — when no such candidate exists — leaves the
state untouched. -/
theorem antiDeadlock_spec (cfg : Config) (lows : List String)
    (cands : List Torrent) (st : LoopSt) :
    (∃ c, cands.find? (fun c => !(lowSkip lows c) &&
        checkDiskBudget cfg st.free c.save_path c.amount_left &&
        c.hash != "") = some c ∧
      antiDeadlock cfg lows cands st =
        { st with
          releaseIds := st.releaseIds ++ [c.hash],
          free := deductDiskBudget cfg c.save_path c.amount_left st.free,
          released := st.released ++ [c.name] }) ∨
    (cands.find? (fun c => !(lowSkip lows c) &&
        checkDiskBudget cfg st.free c.save_path c.amount_left &&
        c.hash != "") = none ∧
      antiDeadlock cfg lows cands st = st) := by
  induction cands with
  | nil => exact Or.inr ⟨rfl, rfl⟩
  | cons c rest ih =>
      rw [antiDeadlock]
      by_cases h1 : lowSkip lows c = true
      · rw [if_pos h1]
        have hp : (!(lowSkip lows c) &&
            checkDiskBudget cfg st.free c.save_path c.amount_left &&
            c.hash != "") = false := by
          simp [h1]
        rcases ih with ⟨c', hfind, heq⟩ | ⟨hfind, heq⟩
        · exact Or.inl ⟨c', by rw [List.find?_cons_of_neg _ (by simp [hp]), hfind], heq⟩
        · exact Or.inr ⟨by rw [List.find?_cons_of_neg _ (by simp [hp]), hfind], heq⟩
      · have h1' := bool_not_true h1
        rw [if_neg h1]
        by_cases h2 : checkDiskBudget cfg st.free c.save_path c.amount_left = true
        · rw [if_neg (by simp [h2])]
          by_cases h3 : c.hash == ""
          · rw [if_pos h3]
            have hp : (!(lowSkip lows c) &&
                checkDiskBudget cfg st.free c.save_path c.amount_left &&
                c.hash != "") = false := by
              simp [h1', h2]
              simpa [bne] using h3
            rcases ih with ⟨c', hfind, heq⟩ | ⟨hfind, heq⟩
            · exact Or.inl ⟨c', by rw [List.find?_cons_of_neg _ (by simp [hp]), hfind], heq⟩
            · exact Or.inr ⟨by rw [List.find?_cons_of_neg _ (by simp [hp]), hfind], heq⟩
          · rw [if_neg h3]
            refine Or.inl ⟨c, ?_, rfl⟩
            rw [List.find?_cons_of_pos]
            simp [h1', h2]
            simpa [bne] using h3
        · have h2' := bool_not_true h2
          rw [if_pos (by simp [h2'])]
          have hp : (!(lowSkip lows c) &&
              checkDiskBudget cfg st.free c.save_path c.amount_left &&
              c.hash != "") = false := by
            simp [h2']
          rcases ih with ⟨c', hfind, heq⟩ | ⟨hfind, heq⟩
          · exact Or.inl ⟨c', by rw [List.find?_cons_of_neg _ (by simp [hp]), hfind], heq⟩
          · exact Or.inr ⟨by rw [List.find?_cons_of_neg _ (by simp [hp]), hfind], heq⟩

/-!
Unique-id machinery (the spec's data model declares `id` an opaque
unique handle) and the disk-safety claim.
-/

/-- The non-empty hashes of a snapshot, in order. -/
def hashesOf (ts : List Torrent) : List String :=
  ts.filterMap (fun t => if t.hash == "" then none else some t.hash)

/-- With pairwise-distinct non-empty hashes, a non-empty hash determines
its torrent. -/
theorem hashesOf_inj {ts : List Torrent} (hnd : (hashesOf ts).Nodup)
    {t1 t2 : Torrent} (h1 : t1 ∈ ts) (h2 : t2 ∈ ts)
    (hh : t1.hash = t2.hash) (hne : t1.hash ≠ "") : t1 = t2 := by
  induction ts with
  | nil => cases h1
  | cons u ts ih =>
      by_cases hu : u.hash == ""
      · have hcons : hashesOf (u :: ts) = hashesOf ts := by
          simp only [hashesOf, List.filterMap_cons, hu, if_true]
        rw [hcons] at hnd
        have hu' : u.hash = "" := by simpa using hu
        rcases List.mem_cons.mp h1 with rfl | h1'
        · exact absurd hu' hne
        · rcases List.mem_cons.mp h2 with rfl | h2'
          · rw [hh] at hne; exact absurd hu' hne
          · exact ih hnd h1' h2'
      · have hcons : hashesOf (u :: ts) = u.hash :: hashesOf ts := by
          simp only [hashesOf, List.filterMap_cons, hu, Bool.false_eq_true,
            if_false]
        rw [hcons, List.nodup_cons] at hnd
        rcases List.mem_cons.mp h1 with rfl | h1'
        · rcases List.mem_cons.mp h2 with rfl | h2'
          · rfl
          · exfalso
            apply hnd.1
            have : t2.hash ∈ hashesOf ts := by
              unfold hashesOf
              apply List.mem_filterMap.mpr
              refine ⟨t2, h2', ?_⟩
              rw [if_neg]
              intro hc
              rw [← hh] at hc
              exact hu hc
            rwa [← hh] at this
        · rcases List.mem_cons.mp h2 with rfl | h2'
          · exfalso
            apply hnd.1
            have : t1.hash ∈ hashesOf ts := by
              unfold hashesOf
              apply List.mem_filterMap.mpr
              refine ⟨t1, h1', ?_⟩
              rw [if_neg]
              intro hc
              exact hne (by simpa using hc)
            rwa [hh] at this
          · exact ih hnd.2 h1' h2'

/-- Stop requests do not change the hash sequence of a snapshot. -/
theorem hashesOf_applyStops (ids : List String) (ts : List Torrent) :
    hashesOf (applyStops ids ts) = hashesOf ts := by
  unfold hashesOf applyStops
  rw [List.filterMap_map]
  apply List.filterMap_congr
  intro t _
  by_cases hm : t.hash ∈ ids <;> simp [Function.comp, hm]

/-- Start requests do not change the hash sequence of a snapshot. -/
theorem hashesOf_applyStarts (ids : List String) (ts : List Torrent) :
    hashesOf (applyStarts ids ts) = hashesOf ts := by
  unfold hashesOf applyStarts
  rw [List.filterMap_map]
  apply List.filterMap_congr
  intro t _
  by_cases hm : t.hash ∈ ids <;> simp [Function.comp, hm]

/-- The snapshot the admission decisions are taken on keeps the original
hash sequence. -/
theorem hashesOf_ts2 (cfg : Config) (free0 : String → Int)
    (ts0 : List Torrent) :
    hashesOf (runPass cfg free0 ts0).ts2 = hashesOf ts0 := by
  show hashesOf (passOv cfg free0 ts0).ts = hashesOf ts0
  have h1 : hashesOf (snapAfterDisk cfg free0 ts0) = hashesOf ts0 := by
    unfold snapAfterDisk
    split
    · rfl
    · exact hashesOf_applyStops _ _
  unfold passOv overflowStage
  split
  · split
    · exact h1
    · show hashesOf (applyStops _ _) = _
      rw [hashesOf_applyStops]
      exact h1
  · exact h1

/-- The sorted admission queue is a permutation of the paused torrents. -/
theorem sortPaused_perm (cfg : Config) (paused : List Torrent) :
    (sortPaused cfg paused).Perm paused := by
  unfold sortPaused
  split
  · exact sortR_perm _ _
  · exact sortR_perm _ _

/-- A torrent under a monitored path flagged low is caught by the
low-space skip guard. -/
theorem lowSkip_of_under {lows : List String} {p : String} (hp : p ∈ lows)
    {t : Torrent} (hunder : isPathUnderPaths t.save_path [p] = true) :
    lowSkip lows t = true := by
  unfold isPathUnderPaths at hunder
  by_cases hsave : t.save_path == ""
  · simp [hsave] at hunder
  · have hne : lows ≠ [] := List.ne_nil_of_mem hp
    have hne' : lows.isEmpty = false := by
      simpa [List.isEmpty_iff] using hne
    simp only [hsave, Bool.false_or, List.isEmpty_cons, if_false] at hunder
    have hany : lows.any (fun base =>
        t.save_path == rstripSlashes base ||
        strStartsWith t.save_path (rstripSlashes base ++ "/")) = true := by
      apply List.any_eq_true.mpr
      refine ⟨p, hp, ?_⟩
      simpa using hunder
    unfold lowSkip isPathUnderPaths
    simp only [hne', hsave, hany, bne]
    simp

/-- Claim C3: no torrent whose storage path sits under a monitored path
flagged low at the start of the pass receives a start request during that
pass — neither from the Admission Loop (including its finished-torrent
branch, which sits after the low-space skip) nor from the Anti-Deadlock
Guard.  Torrent ids are assumed pairwise distinct, as the spec's data
model declares them opaque unique handles. -/
theorem claim_C3_disk_safety (cfg : Config) (free0 : String → Int)
    (ts0 : List Torrent) (hnd : (hashesOf ts0).Nodup)
    (p : String) (hp : p ∈ lowSpacePaths cfg free0)
    (t : Torrent) (ht : t ∈ (runPass cfg free0 ts0).ts2)
    (hunder : isPathUnderPaths t.save_path [p] = true) :
    ¬ t.hash ∈ (runPass cfg free0 ts0).releaseIds := by
  intro hmem
  obtain ⟨S, hsub, hh, hl, hrel, _, _, _⟩ := admitLoop_spec cfg
    (lowSpacePaths cfg free0) (passCands cfg free0 ts0)
    ⟨(passOv cfg free0 ts0).activeLeft, free0, [], [], [], []⟩
  have hS : ∀ id ∈ (passSt1 cfg free0 ts0).releaseIds,
      ∃ s ∈ passCands cfg free0 ts0, s.hash = id ∧ (s.hash != "") = true ∧
        lowSkip (lowSpacePaths cfg free0) s = false := by
    intro id hid
    rw [show (passSt1 cfg free0 ts0).releaseIds =
        ([] : List String) ++ S.map (fun t => t.hash) from hrel] at hid
    rw [List.nil_append] at hid
    obtain ⟨s, hs, hsid⟩ := List.mem_map.mp hid
    exact ⟨s, hsub.subset hs, hsid, hh s hs, hl s hs⟩
  have hexists : ∃ s ∈ passCands cfg free0 ts0, s.hash = t.hash ∧
      (s.hash != "") = true ∧ lowSkip (lowSpacePaths cfg free0) s = false := by
    have hmem' : t.hash ∈ (passSt2 cfg free0 ts0).releaseIds := hmem
    unfold passSt2 at hmem'
    split at hmem'
    · rcases antiDeadlock_spec cfg (lowSpacePaths cfg free0)
        (passCands cfg free0 ts0) (passSt1 cfg free0 ts0) with
        ⟨c, hfind, heq⟩ | ⟨_, heq⟩
      · rw [heq] at hmem'
        rcases List.mem_append.mp hmem' with hin | hin
        · exact hS _ hin
        · have hc := List.mem_of_find?_eq_some hfind
          have hcp := List.find?_some hfind
          simp only [Bool.and_eq_true, Bool.not_eq_true'] at hcp
          have : t.hash = c.hash := by simpa using hin
          exact ⟨c, hc, this.symm, hcp.2, hcp.1.1⟩
      · rw [heq] at hmem'
        exact hS _ hmem'
    · exact hS _ hmem'
  obtain ⟨s, hsc, hsh, hsne, hslow⟩ := hexists
  have hs2 : s ∈ (runPass cfg free0 ts0).ts2 := by
    have h1 : s ∈ pausedOf (passOv cfg free0 ts0).ts :=
      (sortPaused_perm cfg _).subset hsc
    exact (List.mem_filter.mp h1).1
  have hndts2 : (hashesOf (runPass cfg free0 ts0).ts2).Nodup := by
    rw [hashesOf_ts2]; exact hnd
  have hts : s = t :=
    hashesOf_inj hndts2 hs2 ht hsh (bne_iff_ne.mp hsne)
  rw [hts] at hslow
  rw [lowSkip_of_under hp hunder] at hslow
  cases hslow

/-- A monitored directory for the C3 witness: `/low` with 0 bytes free
against a 5-byte floor. -/
def lowCfg : Config :=
  { capacityBytes := 100, priorityMode := "age", enableSmartSkip := true,
    enableLowSpeedTolerance := false, lowSpeedThresholdKib := 0,
    lowSpeedStalledOnly := false, downloadPaths := ["/low"], minFreeBytes := 5 }

/-- A paused torrent stored under the low directory. -/
def tLow : Torrent := ⟨"x", "X", "pausedDL", 1, 1, 1, "/low/sub", 0⟩

/-- Witness for claim C3 at a concrete input. -/
theorem claim_C3_disk_safety_witness :
    (hashesOf [tLow]).Nodup ∧
    "/low" ∈ lowSpacePaths lowCfg noFree ∧
    tLow ∈ (runPass lowCfg noFree [tLow]).ts2 ∧
    isPathUnderPaths tLow.save_path ["/low"] = true ∧
    ¬ tLow.hash ∈ (runPass lowCfg noFree [tLow]).releaseIds :=
  ⟨by decide, by decide, by decide, by decide,
    claim_C3_disk_safety lowCfg noFree [tLow] (by decide) "/low" (by decide)
      tLow (by decide) (by decide)⟩

/-- The Admission Loop stage of a pass, characterised from the empty
starting state: its admitted sublist `S` drives all its outputs. -/
theorem passSt1_spec (cfg : Config) (free0 : String → Int)
    (ts0 : List Torrent) :
    ∃ S : List Torrent, S.Sublist (passCands cfg free0 ts0) ∧
      (∀ s ∈ S, (s.hash != "") = true) ∧
      (∀ s ∈ S, lowSkip (lowSpacePaths cfg free0) s = false) ∧
      (passSt1 cfg free0 ts0).releaseIds = S.map (fun t => t.hash) ∧
      (passSt1 cfg free0 ts0).released = S.map (fun t => t.name) ∧
      (passSt1 cfg free0 ts0).activeLeft =
        (passOv cfg free0 ts0).activeLeft + sumLeft S ∧
      (S = [] → (passSt1 cfg free0 ts0).free = free0) := by
  obtain ⟨S, h1, h2, h3, h4, h5, h6, h7⟩ := admitLoop_spec cfg
    (lowSpacePaths cfg free0) (passCands cfg free0 ts0)
    ⟨(passOv cfg free0 ts0).activeLeft, free0, [], [], [], []⟩
  exact ⟨S, h1, h2, h3, by simpa using h4, by simpa using h5,
    by simpa using h6, h7⟩

/-- Released names and release ids of the Admission Loop are empty
together. -/
theorem passSt1_released_isEmpty (cfg : Config) (free0 : String → Int)
    (ts0 : List Torrent) :
    (passSt1 cfg free0 ts0).released.isEmpty =
      (passSt1 cfg free0 ts0).releaseIds.isEmpty := by
  obtain ⟨S, _, _, _, h4, h5, _, _⟩ := passSt1_spec cfg free0 ts0
  rw [h4, h5]
  cases S <;> rfl

/-- An empty Admission Loop release list means an untouched ledger. -/
theorem passSt1_free_of_empty (cfg : Config) (free0 : String → Int)
    (ts0 : List Torrent) (h : (passSt1 cfg free0 ts0).releaseIds = []) :
    (passSt1 cfg free0 ts0).free = free0 := by
  obtain ⟨S, _, _, _, h4, _, _, h7⟩ := passSt1_spec cfg free0 ts0
  apply h7
  rw [h4] at h
  exact List.map_eq_nil_iff.mp h

/-- The guard only ever appends to the loop's release ids. -/
theorem passSt2_releaseIds_ext (cfg : Config) (free0 : String → Int)
    (ts0 : List Torrent) :
    ∃ g, (passSt2 cfg free0 ts0).releaseIds =
      (passSt1 cfg free0 ts0).releaseIds ++ g := by
  unfold passSt2
  split
  · rcases antiDeadlock_spec cfg (lowSpacePaths cfg free0)
      (passCands cfg free0 ts0) (passSt1 cfg free0 ts0) with
      ⟨c, _, heq⟩ | ⟨_, heq⟩
    · exact ⟨[c.hash], by rw [heq]⟩
    · exact ⟨[], by rw [heq, List.append_nil]⟩
  · exact ⟨[], (List.append_nil _).symm⟩

/-- Claim C5 as amended: the Anti-Deadlock Guard runs exactly when (after
disk protection, overflow resolution and the admission loop) the Active
set is empty, nothing was admitted and the Paused queue is non-empty, and
it then admits exactly the first candidate of the sorted Paused queue
**with a non-empty id** that is not under a low path and passes the
disk-budget check against the untouched ledger, ignoring the capacity cap
(Scenario B: with cap 35 GB, Active empty and Paused = [D: 50 GB], D is
force-admitted); if no candidate passes, no admission occurs. -/
theorem claim_C5_amended (cfg : Config) (free0 : String → Int)
    (ts0 : List Torrent) :
    (passGuardOn cfg free0 ts0 =
      ((activesOf (runPass cfg free0 ts0).ts2).isEmpty &&
        (runPass cfg free0 ts0).loopReleaseIds.isEmpty &&
        !((sortPaused cfg (pausedOf (runPass cfg free0 ts0).ts2)).isEmpty))) ∧
    ((runPass cfg free0 ts0).guardReleaseIds =
      if passGuardOn cfg free0 ts0 = true then
        ((passCands cfg free0 ts0).find? (fun c =>
          !(lowSkip (lowSpacePaths cfg free0) c) &&
          checkDiskBudget cfg free0 c.save_path c.amount_left &&
          c.hash != "")).elim [] (fun c => [c.hash])
      else []) ∧
    (runPass scenarioACfg noFree [torrentD]).guardReleaseIds = ["d"] := by
  refine ⟨?_, ?_, by decide⟩
  · show ((activesOf (passOv cfg free0 ts0).ts).isEmpty &&
        (passSt1 cfg free0 ts0).released.isEmpty &&
        !((passCands cfg free0 ts0).isEmpty)) = _
    rw [passSt1_released_isEmpty]
    rfl
  · by_cases hon : passGuardOn cfg free0 ts0 = true
    · rw [if_pos hon]
      have hrel : (passSt1 cfg free0 ts0).releaseIds = [] := by
        unfold passGuardOn at hon
        simp only [Bool.and_eq_true] at hon
        have := hon.1.2
        rw [List.isEmpty_iff] at this
        obtain ⟨S, _, _, _, h4, h5, _, _⟩ := passSt1_spec cfg free0 ts0
        rw [h5] at this
        rw [h4, List.map_eq_nil_iff.mp this]
        rfl
      have hfree := passSt1_free_of_empty cfg free0 ts0 hrel
      show ((passSt2 cfg free0 ts0).releaseIds.drop
        (passSt1 cfg free0 ts0).releaseIds.length) = _
      have hsplit : passSt2 cfg free0 ts0 =
          antiDeadlock cfg (lowSpacePaths cfg free0) (passCands cfg free0 ts0)
            (passSt1 cfg free0 ts0) := by
        unfold passSt2
        rw [if_pos hon]
      rcases antiDeadlock_spec cfg (lowSpacePaths cfg free0)
        (passCands cfg free0 ts0) (passSt1 cfg free0 ts0) with
        ⟨c, hfind, heq⟩ | ⟨hfind, heq⟩
      · rw [hsplit, heq]
        simp only [List.drop_left]
        rw [hfree] at hfind
        rw [hfind]
        rfl
      · rw [hsplit, heq, List.drop_length]
        rw [hfree] at hfind
        rw [hfind]
        rfl
    · rw [if_neg hon]
      show ((passSt2 cfg free0 ts0).releaseIds.drop
        (passSt1 cfg free0 ts0).releaseIds.length) = []
      have : passSt2 cfg free0 ts0 = passSt1 cfg free0 ts0 := by
        unfold passSt2
        rw [if_neg hon]
      rw [this, List.drop_length]

/-- A torrent of the snapshot named by a start request is active
afterwards. -/
theorem applyStarts_active_mem {ids : List String} {ts : List Torrent}
    {t : Torrent} (ht : t ∈ ts) (hm : t.hash ∈ ids) :
    activesOf (applyStarts ids ts) ≠ [] := by
  have h1 : ({ t with state := "downloading" } : Torrent) ∈
      applyStarts ids ts := by
    unfold applyStarts
    refine List.mem_map.mpr ⟨t, ht, ?_⟩
    rw [if_pos hm]
  have h2 : ({ t with state := "downloading" } : Torrent) ∈
      activesOf (applyStarts ids ts) := by
    apply List.mem_filter.mpr
    refine ⟨h1, ?_⟩
    show isActiveState "downloading" = true
    decide
  exact List.ne_nil_of_mem h2

/-- Claim C2 as amended: if the Paused queue is non-empty and the Active
set is empty entering the Admission Loop, the Active set is non-empty
after the pass, unless every Paused candidate fails the disk check (is
under a currently-low path or fails `canAdmit`) **or lacks an id**:
exhibiting one candidate with a non-empty id, not under a low path and
passing the disk check against the sampled ledger suffices. -/
theorem claim_C2_amended (cfg : Config) (free0 : String → Int)
    (ts0 : List Torrent)
    (hactive : activesOf (runPass cfg free0 ts0).ts2 = [])
    (c : Torrent) (hc : c ∈ passCands cfg free0 ts0)
    (hhash : c.hash ≠ "")
    (hlow : lowSkip (lowSpacePaths cfg free0) c = false)
    (hdisk : checkDiskBudget cfg free0 c.save_path c.amount_left = true) :
    activesOf (postSnapshot cfg free0 ts0) ≠ [] := by
  show activesOf (applyStarts (passSt2 cfg free0 ts0).releaseIds
    (passOv cfg free0 ts0).ts) ≠ []
  by_cases hrel : (passSt1 cfg free0 ts0).releaseIds = []
  · have hfree := passSt1_free_of_empty cfg free0 ts0 hrel
    have hreleased : (passSt1 cfg free0 ts0).released = [] := by
      obtain ⟨S, _, _, _, h4, h5, _, _⟩ := passSt1_spec cfg free0 ts0
      rw [h4] at hrel
      rw [h5, List.map_eq_nil_iff.mp hrel]
      rfl
    have hon : passGuardOn cfg free0 ts0 = true := by
      unfold passGuardOn
      simp only [Bool.and_eq_true]
      refine ⟨⟨?_, ?_⟩, ?_⟩
      · rw [show activesOf (passOv cfg free0 ts0).ts =
          activesOf (runPass cfg free0 ts0).ts2 from rfl, hactive]
        rfl
      · rw [hreleased]; rfl
      · have : passCands cfg free0 ts0 ≠ [] := List.ne_nil_of_mem hc
        simpa [List.isEmpty_iff] using this
    have hsplit : passSt2 cfg free0 ts0 =
        antiDeadlock cfg (lowSpacePaths cfg free0) (passCands cfg free0 ts0)
          (passSt1 cfg free0 ts0) := by
      unfold passSt2
      rw [if_pos hon]
    rcases antiDeadlock_spec cfg (lowSpacePaths cfg free0)
      (passCands cfg free0 ts0) (passSt1 cfg free0 ts0) with
      ⟨c', hfind, heq⟩ | ⟨hfind, heq⟩
    · have hc'mem := List.mem_of_find?_eq_some hfind
      have hc'ts2 : c' ∈ (passOv cfg free0 ts0).ts :=
        (List.mem_filter.mp ((sortPaused_perm cfg _).subset hc'mem)).1
      apply applyStarts_active_mem hc'ts2
      rw [hsplit, heq]
      simp
    · exfalso
      rw [List.find?_eq_none] at hfind
      apply hfind c hc
      rw [hfree]
      simp only [Bool.and_eq_true, Bool.not_eq_true']
      exact ⟨⟨hlow, hdisk⟩, bne_iff_ne.mpr hhash⟩
  · obtain ⟨S, hsub, hh, _, h4, _, _, _⟩ := passSt1_spec cfg free0 ts0
    have hSne : S ≠ [] := by
      intro hS
      rw [h4, hS] at hrel
      exact hrel rfl
    obtain ⟨s, hs⟩ := List.exists_mem_of_ne_nil S hSne
    have hsts2 : s ∈ (passOv cfg free0 ts0).ts :=
      (List.mem_filter.mp ((sortPaused_perm cfg _).subset (hsub.subset hs))).1
    apply applyStarts_active_mem hsts2
    obtain ⟨g, hg⟩ := passSt2_releaseIds_ext cfg free0 ts0
    rw [hg, h4]
    exact List.mem_append_left _ (List.mem_map_of_mem _ hs)

/-- Witness for claim C2 as amended, at spec Scenario B. -/
theorem claim_C2_amended_witness :
    activesOf (runPass scenarioACfg noFree [torrentD]).ts2 = [] ∧
    torrentD ∈ passCands scenarioACfg noFree [torrentD] ∧
    torrentD.hash ≠ "" ∧
    lowSkip (lowSpacePaths scenarioACfg noFree) torrentD = false ∧
    checkDiskBudget scenarioACfg noFree torrentD.save_path
      torrentD.amount_left = true ∧
    activesOf (postSnapshot scenarioACfg noFree [torrentD]) ≠ [] :=
  ⟨by decide, by decide, by decide, by decide, by decide,
    claim_C2_amended scenarioACfg noFree [torrentD] (by decide) torrentD
      (by decide) (by decide) (by decide) (by decide)⟩

/-!
Safety for torrents with a missing or empty id (claim C10).
-/

/-- The Overflow Resolver's stop ids are the walk's output or empty. -/
theorem overflowStage_stopIds (cfg : Config) (ts1 : List Torrent) :
    (overflowStage cfg ts1).stopIds =
      (overflowWalk cfg.capacityBytes (overflowCandidates cfg (activesOf ts1))
        (sumLeft (activesOf ts1))).1 ∨
    (overflowStage cfg ts1).stopIds = [] := by
  unfold overflowStage
  by_cases htrig : sumLeft (activesOf ts1) > cfg.capacityBytes
  · rw [if_pos htrig]
    split
    · exact Or.inl rfl
    · exact Or.inl rfl
  · rw [if_neg htrig]
    exact Or.inr rfl

/-- Every id the pass puts into a stop or start request is non-empty. -/
theorem runPass_ids_ne_empty (cfg : Config) (free0 : String → Int)
    (ts0 : List Torrent) :
    (∀ id ∈ (runPass cfg free0 ts0).diskStops, id ≠ "") ∧
    (∀ id ∈ (runPass cfg free0 ts0).overflowStops, id ≠ "") ∧
    (∀ id ∈ (runPass cfg free0 ts0).releaseIds, id ≠ "") := by
  refine ⟨?_, ?_, ?_⟩
  · intro id hid
    show id ≠ ""
    have hid' : id ∈ diskStopIds cfg free0 ts0 := hid
    unfold diskStopIds at hid'
    split at hid'
    · cases hid'
    · obtain ⟨u, _, hif⟩ := List.mem_filterMap.mp hid'
      split at hif
      · next hcond =>
          simp only [Bool.and_eq_true] at hcond
          injection hif with hif
          rw [← hif]
          exact bne_iff_ne.mp hcond.2
      · cases hif
  · intro id hid
    have hid' : id ∈ (passOv cfg free0 ts0).stopIds := hid
    rcases overflowStage_stopIds cfg (snapAfterDisk cfg free0 ts0) with heq | heq
    · rw [show (passOv cfg free0 ts0).stopIds =
        (overflowStage cfg (snapAfterDisk cfg free0 ts0)).stopIds from rfl,
        heq] at hid'
      obtain ⟨k, _, h1, _, _, _⟩ := overflowWalk_spec cfg.capacityBytes
        (overflowCandidates cfg (activesOf (snapAfterDisk cfg free0 ts0)))
        (sumLeft (activesOf (snapAfterDisk cfg free0 ts0)))
      rw [h1] at hid'
      obtain ⟨s, hs, hsid⟩ := List.mem_map.mp hid'
      rw [← hsid]
      exact bne_iff_ne.mp (List.mem_filter.mp hs).2
    · rw [show (passOv cfg free0 ts0).stopIds =
        (overflowStage cfg (snapAfterDisk cfg free0 ts0)).stopIds from rfl,
        heq] at hid'
      cases hid'
  · intro id hid
    have hid' : id ∈ (passSt2 cfg free0 ts0).releaseIds := hid
    obtain ⟨S, _, hh, _, h4, _, _, _⟩ := passSt1_spec cfg free0 ts0
    have hloop : ∀ i ∈ (passSt1 cfg free0 ts0).releaseIds, i ≠ "" := by
      intro i hi
      rw [h4] at hi
      obtain ⟨s, hs, hsid⟩ := List.mem_map.mp hi
      rw [← hsid]
      exact bne_iff_ne.mp (hh s hs)
    unfold passSt2 at hid'
    split at hid'
    · rcases antiDeadlock_spec cfg (lowSpacePaths cfg free0)
        (passCands cfg free0 ts0) (passSt1 cfg free0 ts0) with
        ⟨c, hfind, heq⟩ | ⟨_, heq⟩
      · rw [heq] at hid'
        rcases List.mem_append.mp hid' with hin | hin
        · exact hloop _ hin
        · have hcp := List.find?_some hfind
          simp only [Bool.and_eq_true] at hcp
          have : id = c.hash := by simpa using hin
          rw [this]
          exact bne_iff_ne.mp hcp.2
      · rw [heq] at hid'
        exact hloop _ hid'
    · exact hloop _ hid'

/-- Claim C10: a torrent whose snapshot entry has a missing/empty id is
never named in any suspend or start request; the Overflow Resolver skips
id-less candidates without subtracting their remaining bytes (so a queue
of only id-less actives exhausts with `active_left` unchanged); and the
Admission Loop, upon a within-capacity id-less candidate that reaches the
admission branch, changes nothing — it neither starts it nor counts it
toward `active_left` or the disk ledger. -/
theorem claim_C10_no_id_safety (cfg : Config) (free0 : String → Int)
    (ts0 : List Torrent) (t : Torrent) (ht : t.hash = "") :
    (¬ t.hash ∈ (runPass cfg free0 ts0).diskStops ∧
     ¬ t.hash ∈ (runPass cfg free0 ts0).overflowStops ∧
     ¬ t.hash ∈ (runPass cfg free0 ts0).releaseIds) ∧
    (∀ (cap acc : Int) (l : List Torrent),
      (∀ u ∈ l, u.hash = "") → overflowWalk cap l acc = ([], acc)) ∧
    (∀ (lows : List String) (rest : List Torrent) (st : LoopSt),
      lowSkip lows t = false → t.amount_left ≠ 0 →
      checkDiskBudget cfg st.free t.save_path t.amount_left = true →
      st.activeLeft + (t.amount_left : Int) ≤ cfg.capacityBytes →
      admitLoop cfg lows (t :: rest) st = admitLoop cfg lows rest st) := by
  obtain ⟨hd, ho, hr⟩ := runPass_ids_ne_empty cfg free0 ts0
  refine ⟨⟨?_, ?_, ?_⟩, ?_, ?_⟩
  · intro hmem; exact hd _ hmem ht
  · intro hmem; exact ho _ hmem ht
  · intro hmem; exact hr _ hmem ht
  · intro cap acc l hall
    induction l with
    | nil => rfl
    | cons u l ih =>
        rw [overflowWalk]
        by_cases hle : acc ≤ cap
        · rw [if_pos hle]
        · rw [if_neg hle, if_pos (by simpa using hall u (List.mem_cons_self u l))]
          exact ih (fun v hv => hall v (List.mem_cons_of_mem u hv))
  · intro lows rest st hlow hne0 hdisk hcap
    have c1 : ¬ (lowSkip lows t = true) := by simp [hlow]
    have c2 : ¬ ((t.amount_left == 0) = true) := by simpa using hne0
    have c3 : ¬ ((!(checkDiskBudget cfg st.free t.save_path t.amount_left)) =
        true) := by simp [hdisk]
    have c5 : ¬ ((t.hash != "") = true) := by simp [ht]
    rw [admitLoop, if_neg c1, if_neg c2, if_neg c3, if_pos hcap, if_neg c5]

/-- Witness for claim C10 at a concrete id-less torrent. -/
theorem claim_C10_no_id_safety_witness :
    torrentE.hash = "" ∧
    ((¬ torrentE.hash ∈ (runPass scenarioACfg noFree [torrentE]).diskStops ∧
      ¬ torrentE.hash ∈ (runPass scenarioACfg noFree [torrentE]).overflowStops ∧
      ¬ torrentE.hash ∈ (runPass scenarioACfg noFree [torrentE]).releaseIds) ∧
     (∀ (cap acc : Int) (l : List Torrent),
       (∀ u ∈ l, u.hash = "") → overflowWalk cap l acc = ([], acc)) ∧
     (∀ (lows : List String) (rest : List Torrent) (st : LoopSt),
       lowSkip lows torrentE = false → torrentE.amount_left ≠ 0 →
       checkDiskBudget scenarioACfg st.free torrentE.save_path
         torrentE.amount_left = true →
       st.activeLeft + (torrentE.amount_left : Int) ≤
         scenarioACfg.capacityBytes →
       admitLoop scenarioACfg lows (torrentE :: rest) st =
         admitLoop scenarioACfg lows rest st)) :=
  ⟨by decide,
    claim_C10_no_id_safety scenarioACfg noFree [torrentE] torrentE (by decide)⟩

/-!
Fixed-point analysis of a pass (claim C4): basic request-application
lemmas.
-/

/-- An empty stop request changes nothing. -/
theorem applyStops_nil (ts : List Torrent) : applyStops [] ts = ts := by
  unfold applyStops
  conv_rhs => rw [← List.map_id ts]
  apply List.map_congr_left
  intro t _
  simp

/-- An empty start request changes nothing. -/
theorem applyStarts_nil (ts : List Torrent) : applyStarts [] ts = ts := by
  unfold applyStarts
  conv_rhs => rw [← List.map_id ts]
  apply List.map_congr_left
  intro t _
  simp

/-- Two stop requests in sequence act like their concatenation. -/
theorem applyStops_applyStops (ids1 ids2 : List String) (ts : List Torrent) :
    applyStops ids2 (applyStops ids1 ts) = applyStops (ids1 ++ ids2) ts := by
  unfold applyStops
  rw [List.map_map]
  apply List.map_congr_left
  intro t _
  by_cases h1 : t.hash ∈ ids1
  · by_cases h2 : t.hash ∈ ids2 <;>
      simp [Function.comp, h1, h2]
  · by_cases h2 : t.hash ∈ ids2 <;>
      simp [Function.comp, h1, h2]

/-- The Disk Protection Stage always acts like applying its stop ids. -/
theorem snapAfterDisk_eq (cfg : Config) (free0 : String → Int)
    (ts0 : List Torrent) :
    snapAfterDisk cfg free0 ts0 =
      applyStops (diskStopIds cfg free0 ts0) ts0 := by
  unfold snapAfterDisk
  split
  · next h =>
      rw [List.isEmpty_iff.mp h, applyStops_nil]
  · rfl

/-- The Overflow Resolver always hands over the snapshot with its stop
ids applied. -/
theorem overflowStage_ts_eq (cfg : Config) (ts1 : List Torrent) :
    (overflowStage cfg ts1).ts =
      applyStops (overflowStage cfg ts1).stopIds ts1 := by
  unfold overflowStage
  by_cases htrig : sumLeft (activesOf ts1) > cfg.capacityBytes
  · rw [if_pos htrig]
    split
    · next h =>
        show ts1 = applyStops _ ts1
        rw [List.isEmpty_iff.mp h, applyStops_nil]
    · rfl
  · rw [if_neg htrig]
    show ts1 = applyStops [] ts1
    rw [applyStops_nil]

/-- The tracked `active_left` the Overflow Resolver hands over always
equals the active remainder of the snapshot it hands over. -/
theorem overflowStage_activeLeft_eq (cfg : Config) (ts1 : List Torrent) :
    (overflowStage cfg ts1).activeLeft =
      sumLeft (activesOf (overflowStage cfg ts1).ts) := by
  unfold overflowStage
  by_cases htrig : sumLeft (activesOf ts1) > cfg.capacityBytes
  · rw [if_pos htrig]
    by_cases h : (overflowWalk cfg.capacityBytes
        (overflowCandidates cfg (activesOf ts1))
        (sumLeft (activesOf ts1))).1.isEmpty = true
    · rw [if_pos h]
      show (overflowWalk cfg.capacityBytes
        (overflowCandidates cfg (activesOf ts1))
        (sumLeft (activesOf ts1))).2 = sumLeft (activesOf ts1)
      obtain ⟨k, _, h1, h2, _, _⟩ := overflowWalk_spec cfg.capacityBytes
        (overflowCandidates cfg (activesOf ts1)) (sumLeft (activesOf ts1))
      rw [List.isEmpty_iff] at h
      rw [h] at h1
      have hS : ((overflowCandidates cfg (activesOf ts1)).take k).filter
          (fun t => t.hash != "") = [] := by
        have := h1.symm
        exact List.map_eq_nil_iff.mp this
      rw [h2, hS, sumLeft_nil]
      omega
    · rw [if_neg h]
  · rw [if_neg htrig]

/-- The Anti-Deadlock Guard never touches the `skipped_disk` record. -/
theorem antiDeadlock_skippedDisk (cfg : Config) (lows : List String)
    (cands : List Torrent) (st : LoopSt) :
    (antiDeadlock cfg lows cands st).skippedDisk = st.skippedDisk := by
  induction cands generalizing st with
  | nil => rfl
  | cons c rest ih =>
      rw [antiDeadlock]
      split_ifs <;> first | exact ih _ | rfl

/-- Release ids already present survive the Admission Loop. -/
theorem admitLoop_releaseIds_mono (cfg : Config) (lows : List String)
    (cands : List Torrent) (st : LoopSt) {id : String}
    (h : id ∈ st.releaseIds) :
    id ∈ (admitLoop cfg lows cands st).releaseIds := by
  obtain ⟨S, _, _, _, h4, _, _, _⟩ := admitLoop_spec cfg lows cands st
  rw [h4]
  exact List.mem_append_left _ h

/-- The Admission Loop never lowers the tracked `active_left`. -/
theorem admitLoop_activeLeft_mono (cfg : Config) (lows : List String)
    (cands : List Torrent) (st : LoopSt) :
    st.activeLeft ≤ (admitLoop cfg lows cands st).activeLeft := by
  obtain ⟨S, _, _, _, _, _, h6, _⟩ := admitLoop_spec cfg lows cands st
  rw [h6]
  have := sumLeft_nonneg S
  omega

/-- The Admission Loop only appends to the `skipped_disk` record. -/
theorem admitLoop_skippedDisk_ext (cfg : Config) (lows : List String)
    (cands : List Torrent) (st : LoopSt) :
    ∃ d, (admitLoop cfg lows cands st).skippedDisk = st.skippedDisk ++ d := by
  induction cands generalizing st with
  | nil => exact ⟨[], by simp [admitLoop]⟩
  | cons t rest ih =>
      rw [admitLoop]
      split_ifs with h1 h2 h3 h4 h5 h6 h7
      · exact ih st
      · obtain ⟨d, hd⟩ := ih
          { st with releaseIds := st.releaseIds ++ [t.hash],
                    released := st.released ++ [t.name] }
        exact ⟨d, hd⟩
      · exact ih st
      · obtain ⟨d, hd⟩ := ih
          { st with skippedDisk := st.skippedDisk ++ [t.name] }
        rw [hd]
        exact ⟨[t.name] ++ d, by simp⟩
      · obtain ⟨d, hd⟩ := ih
          { st with
            releaseIds := st.releaseIds ++ [t.hash],
            activeLeft := st.activeLeft + (t.amount_left : Int),
            free := deductDiskBudget cfg t.save_path t.amount_left st.free,
            released := st.released ++ [t.name] }
        exact ⟨d, hd⟩
      · exact ih st
      · obtain ⟨d, hd⟩ := ih { st with skipped := st.skipped ++ [t.name] }
        exact ⟨d, hd⟩
      · exact ⟨[], by simp⟩

/-- The active torrents after a start request: previously active torrents
plus the started ones. -/
theorem activesOf_applyStarts (ids : List String) (ts : List Torrent) :
    activesOf (applyStarts ids ts) =
      (ts.filter (fun t => decide (t.hash ∈ ids) || isActiveState t.state)).map
        (fun t => if t.hash ∈ ids then { t with state := "downloading" } else t) := by
  unfold activesOf applyStarts
  rw [List.filter_map]
  congr 1
  apply List.filter_congr
  intro t _
  by_cases hm : t.hash ∈ ids
  · simp only [Function.comp_apply, if_pos hm]
    have : isActiveState "downloading" = true := by decide
    simp [hm, this]
  · simp [Function.comp, hm]

/-- The paused torrents after a start request are the previously paused
torrents that were not started. -/
theorem pausedOf_applyStarts (ids : List String) (ts : List Torrent) :
    pausedOf (applyStarts ids ts) =
      (pausedOf ts).filter (fun t => !(decide (t.hash ∈ ids))) := by
  unfold pausedOf applyStarts
  rw [List.filter_map, List.filter_filter]
  have hstop : isPausedState "downloading" = false := by decide
  have hfun : ((fun (t : Torrent) => isPausedState t.state) ∘
      (fun (t : Torrent) =>
        if t.hash ∈ ids then { t with state := "downloading" } else t)) =
      (fun (t : Torrent) => !(decide (t.hash ∈ ids)) && isPausedState t.state) := by
    funext t
    by_cases hm : t.hash ∈ ids
    · simp [Function.comp, hm, hstop]
    · simp [Function.comp, hm]
  rw [hfun]
  have hid : ∀ t ∈ ts.filter
      (fun (t : Torrent) => !(decide (t.hash ∈ ids)) && isPausedState t.state),
      (if t.hash ∈ ids then { t with state := "downloading" } else t) = t := by
    intro t ht
    rw [List.mem_filter] at ht
    have hnm : ¬ t.hash ∈ ids := by
      have h2 := ht.2
      simp only [Bool.and_eq_true, Bool.not_eq_true', decide_eq_false_iff_not] at h2
      exact h2.1
    simp [hnm]
  conv_rhs => rw [← List.map_id (ts.filter
    (fun (t : Torrent) => !(decide (t.hash ∈ ids)) && isPausedState t.state))]
  exact List.map_congr_left hid

/-- `sumLeft` ignores maps that only change torrent states. -/
theorem sumLeft_map_start (ids : List String) (l : List Torrent) :
    sumLeft (l.map (fun t =>
      if t.hash ∈ ids then { t with state := "downloading" } else t)) =
      sumLeft l := by
  induction l with
  | nil => rfl
  | cons t l ih =>
      rw [List.map_cons, sumLeft_cons, sumLeft_cons, ih]
      by_cases hm : t.hash ∈ ids <;> simp [hm]

/-- Splitting `sumLeft` over a disjunctive filter. -/
theorem sumLeft_filter_or (p q : Torrent → Bool) (l : List Torrent) :
    sumLeft (l.filter (fun t => p t || q t)) =
      sumLeft (l.filter p) + sumLeft (l.filter (fun t => !(p t) && q t)) := by
  induction l with
  | nil => simp [sumLeft_nil]
  | cons t l ih =>
      by_cases hp : p t = true
      · simp only [List.filter_cons, hp, Bool.true_or, Bool.not_true,
          Bool.false_and, if_true, Bool.false_eq_true, if_false, sumLeft_cons]
        omega
      · have hp' := bool_not_true hp
        by_cases hq : q t = true
        · simp only [List.filter_cons, hp', hq, Bool.false_or, Bool.not_false,
            Bool.true_and, if_true, Bool.false_eq_true, if_false, sumLeft_cons]
          omega
        · have hq' := bool_not_true hq
          simp only [List.filter_cons, hp', hq', Bool.false_or, Bool.not_false,
            Bool.true_and, Bool.false_eq_true, if_false]
          exact ih

/-- The non-empty hashes of a permuted snapshot are a permutation. -/
theorem hashesOf_perm {l l' : List Torrent} (h : l.Perm l') :
    (hashesOf l).Perm (hashesOf l') :=
  h.filterMap _

/-- The non-empty hashes of a sublist form a sublist. -/
theorem hashesOf_sublist {l l' : List Torrent} (h : l.Sublist l') :
    (hashesOf l).Sublist (hashesOf l') :=
  h.filterMap _

/-- Under pairwise-distinct non-empty hashes, filtering a snapshot by
membership of the hash in the hashes of a sublist recovers exactly that
sublist's remaining bytes. -/
theorem sumLeft_filter_hashes :
    ∀ {l : List Torrent}, (hashesOf l).Nodup →
    ∀ {S : List Torrent}, S.Sublist l → (∀ s ∈ S, s.hash ≠ "") →
    sumLeft (l.filter (fun t =>
      decide (t.hash ∈ S.map (fun t => t.hash)))) = sumLeft S := by
  intro l
  induction l with
  | nil =>
      intro _ S hS _
      rw [List.sublist_nil.mp hS]
      simp [sumLeft_nil]
  | cons u l ih =>
      intro hnd S hS hSh
      by_cases hu : u.hash == ""
      · have hcons : hashesOf (u :: l) = hashesOf l := by
          simp only [hashesOf, List.filterMap_cons, hu, if_true]
        rw [hcons] at hnd
        have hu' : u.hash = "" := by simpa using hu
        have hSl : S.Sublist l := by
          rcases List.sublist_cons_iff.mp hS with h | ⟨S', rfl, _⟩
          · exact h
          · exact absurd hu' (hSh u (List.mem_cons_self u S'))
        rw [List.filter_cons]
        have hdrop : (decide (u.hash ∈ S.map (fun t => t.hash))) = false := by
          simp only [decide_eq_false_iff_not]
          intro hc
          obtain ⟨s, hs, hsh⟩ := List.mem_map.mp hc
          exact hSh s hs (hsh.trans hu')
        rw [hdrop]
        simp only [Bool.false_eq_true, if_false]
        exact ih hnd hSl hSh
      · have hcons : hashesOf (u :: l) = u.hash :: hashesOf l := by
          simp only [hashesOf, List.filterMap_cons, hu, Bool.false_eq_true,
            if_false]
        rw [hcons, List.nodup_cons] at hnd
        have hu' : u.hash ≠ "" := by simpa using hu
        rcases List.sublist_cons_iff.mp hS with h | ⟨S', rfl, hS'⟩
        · -- u is not an element of S
          rw [List.filter_cons]
          have hdrop : (decide (u.hash ∈ S.map (fun t => t.hash))) = false := by
            simp only [decide_eq_false_iff_not]
            intro hc
            obtain ⟨s, hs, hsh⟩ := List.mem_map.mp hc
            apply hnd.1
            unfold hashesOf
            apply List.mem_filterMap.mpr
            refine ⟨s, h.subset hs, ?_⟩
            rw [if_neg (by simpa using hSh s hs), hsh]
          rw [hdrop]
          simp only [Bool.false_eq_true, if_false]
          exact ih hnd.2 h hSh
        · -- S = u :: S'
          rw [List.filter_cons]
          have hkeep : (decide (u.hash ∈ (u :: S').map (fun t => t.hash))) =
              true := by
            simp
          rw [hkeep]
          simp only [if_true, sumLeft_cons]
          have hcongr : l.filter (fun t =>
              decide (t.hash ∈ (u :: S').map (fun t => t.hash))) =
              l.filter (fun t =>
                decide (t.hash ∈ S'.map (fun t => t.hash))) := by
            apply List.filter_congr
            intro t htl
            by_cases hth : t.hash = u.hash
            · exfalso
              apply hnd.1
              unfold hashesOf
              apply List.mem_filterMap.mpr
              refine ⟨t, htl, ?_⟩
              rw [if_neg (by rw [hth]; simpa using hu'), hth]
            · simp only [List.map_cons, List.mem_cons, decide_eq_decide]
              constructor
              · intro hc
                rcases hc with hc | hc
                · exact absurd hc hth
                · exact hc
              · intro hc
                exact Or.inr hc
          rw [hcongr]
          rw [ih hnd.2 hS' (fun s hs => hSh s (List.mem_cons_of_mem u hs))]

/-- `sumLeft_filter_hashes` transported along sub-permutations (the
admitted sublist lives in the sorted queue, a permutation of the paused
torrents of the snapshot). -/
theorem sumLeft_filter_hashes_subperm {l S : List Torrent}
    (hnd : (hashesOf l).Nodup) (hS : S.Subperm l)
    (hSh : ∀ s ∈ S, s.hash ≠ "") :
    sumLeft (l.filter (fun t =>
      decide (t.hash ∈ S.map (fun t => t.hash)))) = sumLeft S := by
  obtain ⟨S1, hperm, hsub⟩ := hS
  have hcongr : l.filter (fun t =>
      decide (t.hash ∈ S.map (fun t => t.hash))) =
      l.filter (fun t => decide (t.hash ∈ S1.map (fun t => t.hash))) := by
    apply List.filter_congr
    intro t _
    simp only [decide_eq_decide]
    exact ((hperm.map (fun t => t.hash)).mem_iff).symm
  rw [hcongr,
    sumLeft_filter_hashes hnd hsub (fun s hs => hSh s (hperm.subset hs))]
  exact sumLeft_perm hperm

/-- The pass's final tracked `active_left` is the Admission Loop's. -/
theorem runPass_finalActiveLeft (cfg : Config) (free0 : String → Int)
    (ts0 : List Torrent) :
    (runPass cfg free0 ts0).finalActiveLeft =
      (passSt1 cfg free0 ts0).activeLeft := by
  show (passSt2 cfg free0 ts0).activeLeft = _
  unfold passSt2
  split
  · exact antiDeadlock_activeLeft cfg _ _ _
  · rfl

/-- When the guard admitted nothing, the pass's start request is exactly
the Admission Loop's. -/
theorem guard_empty_releaseIds (cfg : Config) (free0 : String → Int)
    (ts0 : List Torrent) (h : (runPass cfg free0 ts0).guardReleaseIds = []) :
    (passSt2 cfg free0 ts0).releaseIds = (passSt1 cfg free0 ts0).releaseIds := by
  obtain ⟨g, hg⟩ := passSt2_releaseIds_ext cfg free0 ts0
  have hgval : (runPass cfg free0 ts0).guardReleaseIds = g := by
    show (passSt2 cfg free0 ts0).releaseIds.drop
      (passSt1 cfg free0 ts0).releaseIds.length = g
    rw [hg, List.drop_left]
  rw [hg, hgval.symm.trans h, List.append_nil]

/-- The sub-permutation chain from the admitted sublist into the decision
snapshot. -/
theorem admitted_subperm_ts2 (cfg : Config) (free0 : String → Int)
    (ts0 : List Torrent) {S : List Torrent}
    (hsub : S.Sublist (passCands cfg free0 ts0)) :
    S.Subperm (runPass cfg free0 ts0).ts2 := by
  apply hsub.subperm.trans
  apply (sortPaused_perm cfg (pausedOf (passOv cfg free0 ts0).ts)).subperm.trans
  exact (List.filter_sublist _).subperm

/-- Accounting identity: with unique ids and no guard admission, the
active remainder of the snapshot a pass leaves behind is exactly its
tracked final `active_left`. -/
theorem post_actives_sum (cfg : Config) (free0 : String → Int)
    (ts0 : List Torrent) (hnd : (hashesOf ts0).Nodup)
    (hguard : (runPass cfg free0 ts0).guardReleaseIds = []) :
    sumLeft (activesOf (postSnapshot cfg free0 ts0)) =
      (passSt1 cfg free0 ts0).activeLeft := by
  obtain ⟨S, hsub, hh, _, h4, _, h6, _⟩ := passSt1_spec cfg free0 ts0
  have hndts2 : (hashesOf (runPass cfg free0 ts0).ts2).Nodup := by
    rw [hashesOf_ts2]; exact hnd
  have hR : (passSt2 cfg free0 ts0).releaseIds = S.map (fun t => t.hash) := by
    rw [guard_empty_releaseIds cfg free0 ts0 hguard, h4]
  show sumLeft (activesOf (applyStarts (passSt2 cfg free0 ts0).releaseIds
    (passOv cfg free0 ts0).ts)) = _
  rw [activesOf_applyStarts, sumLeft_map_start, sumLeft_filter_or, hR]
  have hfirst : sumLeft ((passOv cfg free0 ts0).ts.filter (fun t =>
      decide (t.hash ∈ S.map (fun t => t.hash)))) = sumLeft S :=
    sumLeft_filter_hashes_subperm hndts2
      (admitted_subperm_ts2 cfg free0 ts0 hsub)
      (fun s hs => bne_iff_ne.mp (hh s hs))
  have hsecond : (passOv cfg free0 ts0).ts.filter (fun t =>
      !(decide (t.hash ∈ S.map (fun t => t.hash))) && isActiveState t.state) =
      activesOf (passOv cfg free0 ts0).ts := by
    apply List.filter_congr
    intro t htm
    by_cases hact : isActiveState t.state = true
    · have hnm : ¬ t.hash ∈ S.map (fun t => t.hash) := by
        intro hc
        obtain ⟨s, hs, hsh⟩ := List.mem_map.mp hc
        have hs2 : s ∈ (runPass cfg free0 ts0).ts2 :=
          (List.mem_filter.mp ((sortPaused_perm cfg _).subset
            (hsub.subset hs))).1
        have hst : s = t := hashesOf_inj hndts2 hs2 htm
          (by rw [hsh]) (bne_iff_ne.mp (hh s hs))
        have hspaused : isPausedState s.state = true :=
          (List.mem_filter.mp ((sortPaused_perm cfg _).subset
            (hsub.subset hs))).2
        rw [hst] at hspaused
        rw [active_paused_state_disjoint t.state hact] at hspaused
        cases hspaused
      simp [hnm, hact]
    · have hact' := bool_not_true hact
      simp [hact']
  rw [hfirst, hsecond]
  have hov : (passOv cfg free0 ts0).activeLeft =
      sumLeft (activesOf (passOv cfg free0 ts0).ts) :=
    overflowStage_activeLeft_eq cfg (snapAfterDisk cfg free0 ts0)
  rw [h6, ← hov]
  omega

/-- Inserting an element all of whose successors it relates to just
conses it. -/
theorem insertR_eq_cons {r : Torrent → Torrent → Bool} {a : Torrent}
    {l : List Torrent} (h : ∀ x ∈ l, r a x = true) :
    insertR r a l = a :: l := by
  cases l with
  | nil => rfl
  | cons b l => rw [insertR, if_pos (h b (List.mem_cons_self b l))]

/-- Filtering out the inserted element removes it from an insertion. -/
theorem filter_insertR_neg {r : Torrent → Torrent → Bool}
    {p : Torrent → Bool} {a : Torrent} (hpa : p a = false) :
    ∀ {m : List Torrent}, (insertR r a m).filter p = m.filter p := by
  intro m
  induction m with
  | nil => simp [insertR, List.filter_cons, hpa]
  | cons b m ih =>
      rw [insertR]
      by_cases hr : r a b = true
      · rw [if_pos hr, List.filter_cons, hpa]
        simp
      · rw [if_neg hr, List.filter_cons, List.filter_cons]
        by_cases hpb : p b = true
        · rw [hpb]
          simp only [if_true]
          rw [ih]
        · rw [bool_not_true hpb]
          simp only [Bool.false_eq_true, if_false]
          exact ih

/-- Filtering commutes with inserting a kept element into a sorted list
(for a transitive relation). -/
theorem filter_insertR_pos {r : Torrent → Torrent → Bool}
    (htrans : ∀ a b c, r a b = true → r b c = true → r a c = true)
    {p : Torrent → Bool} {a : Torrent} (hpa : p a = true) :
    ∀ {m : List Torrent}, m.Pairwise (fun x y => r x y = true) →
    (insertR r a m).filter p = insertR r a (m.filter p) := by
  intro m
  induction m with
  | nil =>
      intro _
      simp [insertR, List.filter_cons, hpa]
  | cons b m ih =>
      intro hm
      obtain ⟨hb, hm'⟩ := List.pairwise_cons.mp hm
      rw [insertR]
      by_cases hr : r a b = true
      · rw [if_pos hr, List.filter_cons, hpa]
        simp only [if_true]
        rw [List.filter_cons]
        by_cases hpb : p b = true
        · rw [hpb]
          simp only [if_true, insertR, if_pos hr]
        · rw [bool_not_true hpb]
          simp only [Bool.false_eq_true, if_false]
          rw [insertR_eq_cons]
          intro x hx
          exact htrans a b x hr (hb x (List.mem_of_mem_filter hx))
      · rw [if_neg hr, List.filter_cons, List.filter_cons]
        by_cases hpb : p b = true
        · rw [hpb]
          simp only [if_true]
          rw [ih hm', insertR, if_neg hr]
        · rw [bool_not_true hpb]
          simp only [Bool.false_eq_true, if_false]
          exact ih hm'

/-- The stable sort commutes with filtering (for a total transitive
relation). -/
theorem sortR_filter {r : Torrent → Torrent → Bool}
    (htot : ∀ a b, r a b = false → r b a = true)
    (htrans : ∀ a b c, r a b = true → r b c = true → r a c = true)
    (p : Torrent → Bool) (l : List Torrent) :
    sortR r (l.filter p) = (sortR r l).filter p := by
  induction l with
  | nil => rfl
  | cons a l ih =>
      rw [List.filter_cons, sortR]
      by_cases hpa : p a = true
      · rw [hpa]
        simp only [if_true]
        rw [sortR, ih,
          filter_insertR_pos htrans hpa (sortR_pairwise htot htrans l)]
      · rw [bool_not_true hpa]
        simp only [Bool.false_eq_true, if_false]
        rw [ih, filter_insertR_neg (bool_not_true hpa)]

/-- The admission queue sort commutes with filtering. -/
theorem sortPaused_filter (cfg : Config) (p : Torrent → Bool)
    (l : List Torrent) :
    sortPaused cfg (l.filter p) = (sortPaused cfg l).filter p := by
  unfold sortPaused
  split
  · exact sortR_filter
      (fun a b h => by
        simp only [decide_eq_false_iff_not, not_le] at h
        simp only [decide_eq_true_eq]
        omega)
      (fun a b c h1 h2 => by
        simp only [decide_eq_true_eq] at h1 h2 ⊢
        omega)
      p l
  · exact sortR_filter
      (fun a b h => by
        simp only [decide_eq_false_iff_not, not_le] at h
        simp only [decide_eq_true_eq]
        omega)
      (fun a b c h1 h2 => by
        simp only [decide_eq_true_eq] at h1 h2 ⊢
        omega)
      p l

/-- A pass-stable reason why the Admission Loop leaves a candidate
paused: it is skipped for low space, lacks an id, or does not fit under
the capacity at tracked level `al` (and is unfinished). -/
def loopReason (cfg : Config) (lows : List String) (al : Int)
    (c : Torrent) : Prop :=
  lowSkip lows c = true ∨ c.hash = "" ∨
    (c.amount_left ≠ 0 ∧ al + (c.amount_left : Int) > cfg.capacityBytes)

/-- With smart skip on and no disk-insufficient skip recorded, every
scanned candidate is either admitted or has a `loopReason` at the loop's
final tracked `active_left`. -/
theorem admitLoop_not_admitted (cfg : Config) (lows : List String) :
    ∀ (cands : List Torrent) (st : LoopSt),
      cfg.enableSmartSkip = true →
      (admitLoop cfg lows cands st).skippedDisk = st.skippedDisk →
      ∀ c ∈ cands,
        c.hash ∈ (admitLoop cfg lows cands st).releaseIds ∨
        loopReason cfg lows (admitLoop cfg lows cands st).activeLeft c := by
  intro cands
  induction cands with
  | nil =>
      intro st _ _ c hc
      cases hc
  | cons t rest ih =>
      intro st hskip hdisk c hc
      rw [admitLoop] at hdisk ⊢
      split_ifs at hdisk ⊢ with h1 h2 h3 h4 h5 h6
      · rcases List.mem_cons.mp hc with rfl | hc'
        · exact Or.inr (Or.inl h1)
        · exact ih st hskip hdisk c hc'
      · rcases List.mem_cons.mp hc with rfl | hc'
        · left
          apply admitLoop_releaseIds_mono
          simp
        · exact ih _ hskip hdisk c hc'
      · rcases List.mem_cons.mp hc with rfl | hc'
        · right; right; left
          simpa [bne] using h3
        · exact ih st hskip hdisk c hc'
      · exfalso
        obtain ⟨d, hd⟩ := admitLoop_skippedDisk_ext cfg lows rest
          { st with skippedDisk := st.skippedDisk ++ [t.name] }
        rw [hd] at hdisk
        have := congrArg List.length hdisk
        simp at this
      · rcases List.mem_cons.mp hc with rfl | hc'
        · left
          apply admitLoop_releaseIds_mono
          simp
        · exact ih _ hskip hdisk c hc'
      · rcases List.mem_cons.mp hc with rfl | hc'
        · right; right; left
          simpa [bne] using h6
        · exact ih st hskip hdisk c hc'
      · rcases List.mem_cons.mp hc with rfl | hc'
        · right; right; right
          constructor
          · simpa using h2
          · have hmono : st.activeLeft ≤ (admitLoop cfg lows rest
                { st with skipped := st.skipped ++ [c.name] }).activeLeft :=
              admitLoop_activeLeft_mono cfg lows rest
                { st with skipped := st.skipped ++ [c.name] }
            have hgt : st.activeLeft + (c.amount_left : Int) >
                cfg.capacityBytes := lt_of_not_ge h5
            omega
        · exact ih _ hskip hdisk c hc'

/-- A queue in which every candidate has a `loopReason` at the incoming
tracked level is scanned without a single admission: release ids, tracked
`active_left` and the ledger come out unchanged. -/
theorem admitLoop_no_admit (cfg : Config) (lows : List String) :
    ∀ (cands : List Torrent) (st : LoopSt),
      (∀ c ∈ cands, loopReason cfg lows st.activeLeft c) →
      (admitLoop cfg lows cands st).releaseIds = st.releaseIds ∧
      (admitLoop cfg lows cands st).activeLeft = st.activeLeft ∧
      (admitLoop cfg lows cands st).free = st.free := by
  intro cands
  induction cands with
  | nil =>
      intro st _
      exact ⟨rfl, rfl, rfl⟩
  | cons t rest ih =>
      intro st hall
      have ht := hall t (List.mem_cons_self t rest)
      have hrest : ∀ c ∈ rest, loopReason cfg lows st.activeLeft c :=
        fun c hc => hall c (List.mem_cons_of_mem t hc)
      rw [admitLoop]
      split_ifs with h1 h2 h3 h4 h5 h6 h7
      · exact ih st hrest
      · exfalso
        rcases ht with ht | ht | ⟨ht, _⟩
        · exact h1 ht
        · exact (bne_iff_ne.mp h3) ht
        · exact ht (by simpa using h2)
      · exact ih st hrest
      · exact ih { st with skippedDisk := st.skippedDisk ++ [t.name] } hrest
      · exfalso
        rcases ht with ht | ht | ⟨_, ht⟩
        · exact h1 ht
        · exact (bne_iff_ne.mp h6) ht
        · omega
      · exact ih st hrest
      · exact ih { st with skipped := st.skipped ++ [t.name] } hrest
      · exact ⟨rfl, rfl, rfl⟩

/-- With smart skip off, a queue whose prefix has only `loopReason`
candidates and then hits an unfinished, disk-passing, over-capacity
candidate is scanned without a single admission (the scan stops there). -/
theorem admitLoop_no_admit_break (cfg : Config) (lows : List String) :
    ∀ (l1 : List Torrent) (c0 : Torrent) (l2 : List Torrent) (st : LoopSt),
      cfg.enableSmartSkip = false →
      (∀ c ∈ l1, loopReason cfg lows st.activeLeft c) →
      lowSkip lows c0 = false → c0.amount_left ≠ 0 →
      checkDiskBudget cfg st.free c0.save_path c0.amount_left = true →
      st.activeLeft + (c0.amount_left : Int) > cfg.capacityBytes →
      (admitLoop cfg lows (l1 ++ c0 :: l2) st).releaseIds = st.releaseIds ∧
      (admitLoop cfg lows (l1 ++ c0 :: l2) st).activeLeft = st.activeLeft ∧
      (admitLoop cfg lows (l1 ++ c0 :: l2) st).free = st.free := by
  intro l1
  induction l1 with
  | nil =>
      intro c0 l2 st hoff _ hlow0 hne0 hdisk0 hcap0
      have c1 : ¬ (lowSkip lows c0 = true) := by simp [hlow0]
      have c2 : ¬ ((c0.amount_left == 0) = true) := by simpa using hne0
      have c3 : ¬ ((!(checkDiskBudget cfg st.free c0.save_path
          c0.amount_left)) = true) := by simp [hdisk0]
      have c4 : ¬ (st.activeLeft + (c0.amount_left : Int) ≤
          cfg.capacityBytes) := not_le.mpr hcap0
      have c5 : ¬ (cfg.enableSmartSkip = true) := by simp [hoff]
      rw [List.nil_append, admitLoop, if_neg c1, if_neg c2, if_neg c3,
        if_neg c4, if_neg c5]
      exact ⟨rfl, rfl, rfl⟩
  | cons t l1 ih =>
      intro c0 l2 st hoff hall hlow0 hne0 hdisk0 hcap0
      have ht := hall t (List.mem_cons_self t l1)
      have hrest : ∀ c ∈ l1, loopReason cfg lows st.activeLeft c :=
        fun c hc => hall c (List.mem_cons_of_mem t hc)
      rw [List.cons_append, admitLoop]
      split_ifs with h1 h2 h3 h4 h5 h6 h7
      · exact ih c0 l2 st hoff hrest hlow0 hne0 hdisk0 hcap0
      · exfalso
        rcases ht with ht | ht | ⟨ht, _⟩
        · exact h1 ht
        · exact (bne_iff_ne.mp h3) ht
        · exact ht (by simpa using h2)
      · exact ih c0 l2 st hoff hrest hlow0 hne0 hdisk0 hcap0
      · exact ih c0 l2 { st with skippedDisk := st.skippedDisk ++ [t.name] }
          hoff hrest hlow0 hne0 hdisk0 hcap0
      · exfalso
        rcases ht with ht | ht | ⟨_, ht⟩
        · exact h1 ht
        · exact (bne_iff_ne.mp h6) ht
        · omega
      · exact ih c0 l2 st hoff hrest hlow0 hne0 hdisk0 hcap0
      · exact absurd h7 (by simp [hoff])
      · exact ⟨rfl, rfl, rfl⟩

/-- With smart skip off and no disk-insufficient skip recorded, a scanned
queue either has every candidate admitted-or-reasoned, or decomposes at
the strict stop: a prefix of admitted-or-reasoned candidates, then an
unfinished, not-low, disk-passing candidate that exceeds the capacity at
the loop's final tracked level — and every admission came from that
prefix. -/
theorem admitLoop_off_decomp (cfg : Config) (lows : List String) :
    ∀ (cands : List Torrent) (st : LoopSt),
      cfg.enableSmartSkip = false →
      (admitLoop cfg lows cands st).skippedDisk = st.skippedDisk →
      (∀ c ∈ cands,
        c.hash ∈ (admitLoop cfg lows cands st).releaseIds ∨
        loopReason cfg lows (admitLoop cfg lows cands st).activeLeft c) ∨
      (∃ l1 c0 l2, cands = l1 ++ c0 :: l2 ∧
        (∀ c ∈ l1,
          c.hash ∈ (admitLoop cfg lows cands st).releaseIds ∨
          loopReason cfg lows (admitLoop cfg lows cands st).activeLeft c) ∧
        (∀ id ∈ (admitLoop cfg lows cands st).releaseIds,
          id ∈ st.releaseIds ∨ ∃ s ∈ l1, s.hash = id) ∧
        lowSkip lows c0 = false ∧ c0.amount_left ≠ 0 ∧
        checkDiskBudget cfg (admitLoop cfg lows cands st).free
          c0.save_path c0.amount_left = true ∧
        (admitLoop cfg lows cands st).activeLeft + (c0.amount_left : Int) >
          cfg.capacityBytes) := by
  intro cands
  induction cands with
  | nil =>
      intro st _ _
      left
      intro c hc
      cases hc
  | cons t rest ih =>
      intro st hoff hdisk
      rw [admitLoop] at hdisk ⊢
      split_ifs at hdisk ⊢ with h1 h2 h3 h4 h5 h6 h7
      · -- low-space skip of t
        rcases ih st hoff hdisk with hall | ⟨l1, c0, l2, heq, hl1, howner,
            hc1, hc2, hc3, hc4⟩
        · left
          intro c hc
          rcases List.mem_cons.mp hc with rfl | hc'
          · exact Or.inr (Or.inl h1)
          · exact hall c hc'
        · right
          refine ⟨t :: l1, c0, l2, by rw [heq, List.cons_append], ?_,
            ?_, hc1, hc2, hc3, hc4⟩
          · intro c hc
            rcases List.mem_cons.mp hc with rfl | hc'
            · exact Or.inr (Or.inl h1)
            · exact hl1 c hc'
          · intro id hid
            rcases howner id hid with hin | ⟨s, hs, hsid⟩
            · exact Or.inl hin
            · exact Or.inr ⟨s, List.mem_cons_of_mem t hs, hsid⟩
      · -- finished torrent with a hash: released
        rcases ih _ hoff hdisk with hall | ⟨l1, c0, l2, heq, hl1, howner,
            hc1, hc2, hc3, hc4⟩
        · left
          intro c hc
          rcases List.mem_cons.mp hc with rfl | hc'
          · left
            apply admitLoop_releaseIds_mono
            simp
          · exact hall c hc'
        · right
          refine ⟨t :: l1, c0, l2, by rw [heq, List.cons_append], ?_,
            ?_, hc1, hc2, hc3, hc4⟩
          · intro c hc
            rcases List.mem_cons.mp hc with rfl | hc'
            · left
              apply admitLoop_releaseIds_mono
              simp
            · exact hl1 c hc'
          · intro id hid
            rcases howner id hid with hin | ⟨s, hs, hsid⟩
            · rcases List.mem_append.mp hin with hin' | hin'
              · exact Or.inl hin'
              · exact Or.inr ⟨t, List.mem_cons_self t l1, ((by simpa using hin' : id = t.hash)).symm⟩
            · exact Or.inr ⟨s, List.mem_cons_of_mem t hs, hsid⟩
      · -- finished torrent without a hash
        rcases ih st hoff hdisk with hall | ⟨l1, c0, l2, heq, hl1, howner,
            hc1, hc2, hc3, hc4⟩
        · left
          intro c hc
          rcases List.mem_cons.mp hc with rfl | hc'
          · exact Or.inr (Or.inr (Or.inl (by simpa [bne] using h3)))
          · exact hall c hc'
        · right
          refine ⟨t :: l1, c0, l2, by rw [heq, List.cons_append], ?_,
            ?_, hc1, hc2, hc3, hc4⟩
          · intro c hc
            rcases List.mem_cons.mp hc with rfl | hc'
            · exact Or.inr (Or.inr (Or.inl (by simpa [bne] using h3)))
            · exact hl1 c hc'
          · intro id hid
            rcases howner id hid with hin | ⟨s, hs, hsid⟩
            · exact Or.inl hin
            · exact Or.inr ⟨s, List.mem_cons_of_mem t hs, hsid⟩
      · -- disk-insufficient skip: excluded
        exfalso
        obtain ⟨d, hd⟩ := admitLoop_skippedDisk_ext cfg lows rest
          { st with skippedDisk := st.skippedDisk ++ [t.name] }
        rw [hd] at hdisk
        have := congrArg List.length hdisk
        simp at this
      · -- within capacity with a hash: released
        rcases ih _ hoff hdisk with hall | ⟨l1, c0, l2, heq, hl1, howner,
            hc1, hc2, hc3, hc4⟩
        · left
          intro c hc
          rcases List.mem_cons.mp hc with rfl | hc'
          · left
            apply admitLoop_releaseIds_mono
            simp
          · exact hall c hc'
        · right
          refine ⟨t :: l1, c0, l2, by rw [heq, List.cons_append], ?_,
            ?_, hc1, hc2, hc3, hc4⟩
          · intro c hc
            rcases List.mem_cons.mp hc with rfl | hc'
            · left
              apply admitLoop_releaseIds_mono
              simp
            · exact hl1 c hc'
          · intro id hid
            rcases howner id hid with hin | ⟨s, hs, hsid⟩
            · rcases List.mem_append.mp hin with hin' | hin'
              · exact Or.inl hin'
              · exact Or.inr ⟨t, List.mem_cons_self t l1, ((by simpa using hin' : id = t.hash)).symm⟩
            · exact Or.inr ⟨s, List.mem_cons_of_mem t hs, hsid⟩
      · -- within capacity without a hash
        rcases ih st hoff hdisk with hall | ⟨l1, c0, l2, heq, hl1, howner,
            hc1, hc2, hc3, hc4⟩
        · left
          intro c hc
          rcases List.mem_cons.mp hc with rfl | hc'
          · exact Or.inr (Or.inr (Or.inl (by simpa [bne] using h6)))
          · exact hall c hc'
        · right
          refine ⟨t :: l1, c0, l2, by rw [heq, List.cons_append], ?_,
            ?_, hc1, hc2, hc3, hc4⟩
          · intro c hc
            rcases List.mem_cons.mp hc with rfl | hc'
            · exact Or.inr (Or.inr (Or.inl (by simpa [bne] using h6)))
            · exact hl1 c hc'
          · intro id hid
            rcases howner id hid with hin | ⟨s, hs, hsid⟩
            · exact Or.inl hin
            · exact Or.inr ⟨s, List.mem_cons_of_mem t hs, hsid⟩
      · -- over capacity with smart skip on: excluded
        exact absurd h7 (by simp [hoff])
      · -- over capacity with smart skip off: the strict stop
        right
        refine ⟨[], t, rest, rfl, ?_, ?_, bool_not_true h1, by simpa using h2,
          ?_, lt_of_not_ge h5⟩
        · intro c hc
          cases hc
        · intro id hid
          exact Or.inl hid
        · have := bool_not_true h4
          simpa using this

/-- Deduction only lowers the virtual ledger. -/
theorem deductDiskBudget_le (cfg : Config) (save_path : String) (used : Nat)
    (free : String → Int) (p : String) :
    deductDiskBudget cfg save_path used free p ≤ free p := by
  unfold deductDiskBudget
  rcases hm : matchDownloadPath cfg save_path with _ | q
  · simp only [hm]
    exact le_refl _
  · simp only [hm]
    split
    · show (if (p == q) = true then free p - (used : Int) else free p) ≤ free p
      by_cases hq : (p == q) = true
      · rw [if_pos hq]
        have : (0 : Int) ≤ (used : Int) := Int.ofNat_nonneg _
        omega
      · rw [if_neg hq]
    · exact le_refl _

/-- The Admission Loop only lowers the virtual ledger. -/
theorem admitLoop_free_le (cfg : Config) (lows : List String) :
    ∀ (cands : List Torrent) (st : LoopSt) (p : String),
      (admitLoop cfg lows cands st).free p ≤ st.free p := by
  intro cands
  induction cands with
  | nil =>
      intro st p
      exact le_refl _
  | cons t rest ih =>
      intro st p
      rw [admitLoop]
      split_ifs
      · exact ih st p
      · exact ih _ p
      · exact ih st p
      · exact ih _ p
      · calc (admitLoop cfg lows rest _).free p ≤
            deductDiskBudget cfg t.save_path t.amount_left st.free p := ih _ p
          _ ≤ st.free p := deductDiskBudget_le cfg _ _ _ p
      · exact ih st p
      · exact ih _ p
      · exact le_refl _

/-- The disk-budget check is monotone in the ledger. -/
theorem checkDiskBudget_mono (cfg : Config) {f g : String → Int}
    (hfg : ∀ p, f p ≤ g p) (save_path : String) (needed : Nat)
    (h : checkDiskBudget cfg f save_path needed = true) :
    checkDiskBudget cfg g save_path needed = true := by
  unfold checkDiskBudget at h ⊢
  by_cases hemp : cfg.downloadPaths.isEmpty = true
  · rw [if_pos hemp]
  · rw [if_neg hemp] at h ⊢
    rcases hm : matchDownloadPath cfg save_path with _ | p
    · simp only [hm]
    · simp only [hm] at h ⊢
      simp only [decide_eq_true_eq] at h ⊢
      have := hfg p
      omega

/-- The decision snapshot is the original snapshot with all of the
pass's stop requests applied. -/
theorem ts2_eq (cfg : Config) (free0 : String → Int) (ts0 : List Torrent) :
    (runPass cfg free0 ts0).ts2 =
      applyStops (diskStopIds cfg free0 ts0 ++ (passOv cfg free0 ts0).stopIds)
        ts0 := by
  show (passOv cfg free0 ts0).ts = _
  rw [← applyStops_applyStops, ← snapAfterDisk_eq]
  exact overflowStage_ts_eq cfg (snapAfterDisk cfg free0 ts0)

/-- The pass's reported disk-insufficient skips are the Admission
Loop's. -/
theorem runPass_skippedDisk (cfg : Config) (free0 : String → Int)
    (ts0 : List Torrent) :
    (runPass cfg free0 ts0).skippedDisk =
      (passSt1 cfg free0 ts0).skippedDisk := by
  show (passSt2 cfg free0 ts0).skippedDisk = _
  unfold passSt2
  split
  · exact antiDeadlock_skippedDisk cfg _ _ _
  · rfl

/-- Re-running the Disk Protection Stage on the snapshot a pass leaves
behind collects nothing (unique ids, guard silent): every active torrent
under a low path with an id was already stopped, started torrents are not
under low paths, and id-less ones are never collected. -/
theorem post_diskStopIds_nil (cfg : Config) (free0 : String → Int)
    (ts0 : List Torrent) (hnd : (hashesOf ts0).Nodup)
    (hguard : (runPass cfg free0 ts0).guardReleaseIds = []) :
    diskStopIds cfg free0 (postSnapshot cfg free0 ts0) = [] := by
  obtain ⟨S, hsub, hh, hl, h4, _, _, _⟩ := passSt1_spec cfg free0 ts0
  have hndts2 : (hashesOf (runPass cfg free0 ts0).ts2).Nodup := by
    rw [hashesOf_ts2]; exact hnd
  have hR : (passSt2 cfg free0 ts0).releaseIds = S.map (fun t => t.hash) := by
    rw [guard_empty_releaseIds cfg free0 ts0 hguard, h4]
  unfold diskStopIds
  by_cases hlowemp : (lowSpacePaths cfg free0).isEmpty = true
  · rw [if_pos hlowemp]
  · rw [if_neg hlowemp]
    apply List.filterMap_eq_nil_iff.mpr
    intro t ht
    have hpost : t ∈ applyStarts (passSt2 cfg free0 ts0).releaseIds
        (passOv cfg free0 ts0).ts := ht
    unfold applyStarts at hpost
    obtain ⟨t2, ht2, heq⟩ := List.mem_map.mp hpost
    by_cases hm : t2.hash ∈ (passSt2 cfg free0 ts0).releaseIds
    · -- a started torrent: it was an admitted candidate, not under low
      rw [if_pos hm] at heq
      obtain ⟨s, hs, hsh⟩ := List.mem_map.mp (by rw [← hR]; exact hm)
      have hs2 : s ∈ (runPass cfg free0 ts0).ts2 :=
        (List.mem_filter.mp ((sortPaused_perm cfg _).subset
          (hsub.subset hs))).1
      have hst : s = t2 := hashesOf_inj hndts2 hs2 ht2 hsh
        (bne_iff_ne.mp (hh s hs))
      have hlow : lowSkip (lowSpacePaths cfg free0) t2 = false := by
        rw [← hst]; exact hl s hs
      have hlow2 : (t2.save_path != "" &&
          isPathUnderPaths t2.save_path (lowSpacePaths cfg free0)) = false := by
        unfold lowSkip at hlow
        rw [bool_not_true hlowemp] at hlow
        simpa using hlow
      rw [if_neg]
      rw [← heq]
      show ¬ ((isActiveState "downloading" && t2.save_path != "" &&
        isPathUnderPaths t2.save_path (lowSpacePaths cfg free0) &&
        t2.hash != "") = true)
      intro hcond
      simp only [Bool.and_eq_true] at hcond
      have : (t2.save_path != "" &&
          isPathUnderPaths t2.save_path (lowSpacePaths cfg free0)) = true := by
        rw [Bool.and_eq_true]
        exact ⟨hcond.1.1.2, hcond.1.2⟩
      rw [hlow2] at this
      cases this
    · -- an untouched torrent: if it qualified it would have been stopped
      rw [if_neg hm] at heq
      subst heq
      rw [if_neg]
      intro hcond
      simp only [Bool.and_eq_true] at hcond
      obtain ⟨⟨⟨hact, hsave⟩, hunder⟩, hhash⟩ := hcond
      have hts2 := ht2
      rw [show (passOv cfg free0 ts0).ts = (runPass cfg free0 ts0).ts2
        from rfl, ts2_eq] at hts2
      unfold applyStops at hts2
      obtain ⟨v, hv, hveq⟩ := List.mem_map.mp hts2
      by_cases hvm : v.hash ∈ diskStopIds cfg free0 ts0 ++
          (passOv cfg free0 ts0).stopIds
      · rw [if_pos hvm] at hveq
        rw [← hveq] at hact
        have : isActiveState "stoppedDL" = false := by decide
        rw [this] at hact
        cases hact
      · rw [if_neg hvm] at hveq
        subst hveq
        apply hvm
        apply List.mem_append_left
        unfold diskStopIds
        rw [if_neg hlowemp]
        apply List.mem_filterMap.mpr
        refine ⟨v, hv, ?_⟩
        rw [if_pos]
        simp only [Bool.and_eq_true]
        exact ⟨⟨⟨hact, hsave⟩, hunder⟩, hhash⟩

/-- On the snapshot a pass leaves behind (unique ids, silent guard, final
`active_left` within the cap), the next pass's Disk Protection Stage and
Overflow Resolver both do nothing. -/
theorem passOv_post (cfg : Config) (free0 : String → Int)
    (ts0 : List Torrent) (hnd : (hashesOf ts0).Nodup)
    (hguard : (runPass cfg free0 ts0).guardReleaseIds = [])
    (hcap : (runPass cfg free0 ts0).finalActiveLeft ≤ cfg.capacityBytes) :
    passOv cfg free0 (postSnapshot cfg free0 ts0) =
      ⟨[], postSnapshot cfg free0 ts0,
        sumLeft (activesOf (postSnapshot cfg free0 ts0))⟩ := by
  have h1 : snapAfterDisk cfg free0 (postSnapshot cfg free0 ts0) =
      postSnapshot cfg free0 ts0 := by
    unfold snapAfterDisk
    rw [post_diskStopIds_nil cfg free0 ts0 hnd hguard]
    rfl
  have h2 : ¬ (sumLeft (activesOf (postSnapshot cfg free0 ts0)) >
      cfg.capacityBytes) := by
    rw [post_actives_sum cfg free0 ts0 hnd hguard,
      ← runPass_finalActiveLeft cfg free0 ts0]
    omega
  show overflowStage cfg (snapAfterDisk cfg free0
    (postSnapshot cfg free0 ts0)) = _
  rw [h1]
  unfold overflowStage
  rw [if_neg h2]

/-- The sorted admission queue of the follow-up pass is the previous
queue with the admitted candidates removed. -/
theorem passCands_post (cfg : Config) (free0 : String → Int)
    (ts0 : List Torrent) (hnd : (hashesOf ts0).Nodup)
    (hguard : (runPass cfg free0 ts0).guardReleaseIds = [])
    (hcap : (runPass cfg free0 ts0).finalActiveLeft ≤ cfg.capacityBytes) :
    passCands cfg free0 (postSnapshot cfg free0 ts0) =
      (passCands cfg free0 ts0).filter (fun c =>
        !(decide (c.hash ∈ (passSt2 cfg free0 ts0).releaseIds))) := by
  show sortPaused cfg (pausedOf (passOv cfg free0
    (postSnapshot cfg free0 ts0)).ts) = _
  rw [passOv_post cfg free0 ts0 hnd hguard hcap]
  show sortPaused cfg (pausedOf (applyStarts
    (passSt2 cfg free0 ts0).releaseIds (passOv cfg free0 ts0).ts)) = _
  rw [pausedOf_applyStarts, sortPaused_filter]
  rfl

/-- The Admission Loop of the follow-up pass on a pass's snapshot admits
nothing and leaves the ledger untouched (unique ids, no disk skip, guard
silent, final tracked level within the cap). -/
theorem post_loop_no_admit (cfg : Config) (free0 : String → Int)
    (ts0 : List Torrent) (hnd : (hashesOf ts0).Nodup)
    (hdisk : (runPass cfg free0 ts0).skippedDisk = [])
    (hguard : (runPass cfg free0 ts0).guardReleaseIds = [])
    (hcap : (runPass cfg free0 ts0).finalActiveLeft ≤ cfg.capacityBytes) :
    (passSt1 cfg free0 (postSnapshot cfg free0 ts0)).releaseIds = [] ∧
    (passSt1 cfg free0 (postSnapshot cfg free0 ts0)).free = free0 := by
  have hR : (passSt2 cfg free0 ts0).releaseIds =
      (passSt1 cfg free0 ts0).releaseIds :=
    guard_empty_releaseIds cfg free0 ts0 hguard
  have hcands2 := passCands_post cfg free0 ts0 hnd hguard hcap
  rw [hR] at hcands2
  have hov := passOv_post cfg free0 ts0 hnd hguard hcap
  have hAL2 : (passOv cfg free0 (postSnapshot cfg free0 ts0)).activeLeft =
      (passSt1 cfg free0 ts0).activeLeft := by
    rw [hov]
    exact post_actives_sum cfg free0 ts0 hnd hguard
  have hdisk1 : (admitLoop cfg (lowSpacePaths cfg free0)
      (passCands cfg free0 ts0)
      ⟨(passOv cfg free0 ts0).activeLeft, free0, [], [], [], []⟩).skippedDisk =
      (⟨(passOv cfg free0 ts0).activeLeft, free0, [], [], [], []⟩ :
        LoopSt).skippedDisk := by
    show (passSt1 cfg free0 ts0).skippedDisk = []
    rw [← runPass_skippedDisk cfg free0 ts0]
    exact hdisk
  cases hsm : cfg.enableSmartSkip with
  | true =>
      have hall : ∀ c ∈ passCands cfg free0 (postSnapshot cfg free0 ts0),
          loopReason cfg (lowSpacePaths cfg free0)
            ((passOv cfg free0 (postSnapshot cfg free0 ts0)).activeLeft) c := by
        intro c hc
        rw [hcands2] at hc
        obtain ⟨hc1, hq⟩ := List.mem_filter.mp hc
        simp only [Bool.not_eq_true', decide_eq_false_iff_not] at hq
        rcases admitLoop_not_admitted cfg (lowSpacePaths cfg free0)
            (passCands cfg free0 ts0)
            ⟨(passOv cfg free0 ts0).activeLeft, free0, [], [], [], []⟩
            hsm hdisk1 c hc1 with hmem | hres
        · exact absurd (show c.hash ∈ (passSt1 cfg free0 ts0).releaseIds
            from hmem) hq
        · have hres' : loopReason cfg (lowSpacePaths cfg free0)
              (passSt1 cfg free0 ts0).activeLeft c := hres
          rw [hAL2]
          exact hres'
      obtain ⟨e1, _, e3⟩ := admitLoop_no_admit cfg (lowSpacePaths cfg free0)
        (passCands cfg free0 (postSnapshot cfg free0 ts0))
        ⟨(passOv cfg free0 (postSnapshot cfg free0 ts0)).activeLeft,
          free0, [], [], [], []⟩ hall
      exact ⟨e1, e3⟩
  | false =>
      rcases admitLoop_off_decomp cfg (lowSpacePaths cfg free0)
          (passCands cfg free0 ts0)
          ⟨(passOv cfg free0 ts0).activeLeft, free0, [], [], [], []⟩
          hsm hdisk1 with hall₁ |
          ⟨l1, c0, l2, heq, hl1, howner, hc1, hc2, hc3, hc4⟩
      · have hall : ∀ c ∈ passCands cfg free0 (postSnapshot cfg free0 ts0),
            loopReason cfg (lowSpacePaths cfg free0)
              ((passOv cfg free0 (postSnapshot cfg free0 ts0)).activeLeft) c := by
          intro c hc
          rw [hcands2] at hc
          obtain ⟨hc1, hq⟩ := List.mem_filter.mp hc
          simp only [Bool.not_eq_true', decide_eq_false_iff_not] at hq
          rcases hall₁ c hc1 with hmem | hres
          · exact absurd (show c.hash ∈ (passSt1 cfg free0 ts0).releaseIds
              from hmem) hq
          · have hres' : loopReason cfg (lowSpacePaths cfg free0)
                (passSt1 cfg free0 ts0).activeLeft c := hres
            rw [hAL2]
            exact hres'
        obtain ⟨e1, _, e3⟩ := admitLoop_no_admit cfg (lowSpacePaths cfg free0)
          (passCands cfg free0 (postSnapshot cfg free0 ts0))
          ⟨(passOv cfg free0 (postSnapshot cfg free0 ts0)).activeLeft,
            free0, [], [], [], []⟩ hall
        exact ⟨e1, e3⟩
      · have hnd2 : (hashesOf (runPass cfg free0 ts0).ts2).Nodup := by
          rw [hashesOf_ts2]
          exact hnd
        have hndp : (hashesOf (pausedOf (passOv cfg free0 ts0).ts)).Nodup :=
          (hashesOf_sublist (List.filter_sublist _)).nodup hnd2
        have hnd1 : (hashesOf (passCands cfg free0 ts0)).Nodup :=
          ((hashesOf_perm (sortPaused_perm cfg _)).nodup_iff).mpr hndp
        have hnotin : c0.hash ∉ (passSt1 cfg free0 ts0).releaseIds := by
          intro hmem
          have hmem2 : c0.hash ∈ (passSt2 cfg free0 ts0).releaseIds := by
            rw [hR]
            exact hmem
          have hne : c0.hash ≠ "" :=
            (runPass_ids_ne_empty cfg free0 ts0).2.2 c0.hash hmem2
          rcases howner c0.hash hmem with habs | ⟨s, hs, hsid⟩
          · have habs' : c0.hash ∈ ([] : List String) := habs
            cases habs'
          · have hnd1' : (hashesOf (l1 ++ c0 :: l2)).Nodup := by
              rw [← heq]
              exact hnd1
            have happ : hashesOf (l1 ++ c0 :: l2) =
                hashesOf l1 ++ hashesOf (c0 :: l2) :=
              List.filterMap_append _ _ _
            rw [happ] at hnd1'
            have hdisj := (List.nodup_append.mp hnd1').2.2
            have hmem1 : c0.hash ∈ hashesOf l1 := by
              refine List.mem_filterMap.mpr ⟨s, hs, ?_⟩
              simp [hsid, hne]
            have hmemr : c0.hash ∈ hashesOf (c0 :: l2) := by
              refine List.mem_filterMap.mpr ⟨c0, List.mem_cons_self c0 l2, ?_⟩
              simp [hne]
            exact hdisj hmem1 hmemr
        have hq0 : (!(decide (c0.hash ∈
            (passSt1 cfg free0 ts0).releaseIds))) = true := by
          simp [hnotin]
        have hsplit : passCands cfg free0 (postSnapshot cfg free0 ts0) =
            (l1.filter (fun c => !(decide (c.hash ∈
              (passSt1 cfg free0 ts0).releaseIds)))) ++ c0 ::
            (l2.filter (fun c => !(decide (c.hash ∈
              (passSt1 cfg free0 ts0).releaseIds)))) := by
          rw [hcands2, heq, List.filter_append, List.filter_cons_of_pos]
          exact hq0
        have hl1f : ∀ c ∈ l1.filter (fun c => !(decide (c.hash ∈
            (passSt1 cfg free0 ts0).releaseIds))),
            loopReason cfg (lowSpacePaths cfg free0)
              ((passOv cfg free0 (postSnapshot cfg free0 ts0)).activeLeft) c := by
          intro c hc
          obtain ⟨hcl, hq⟩ := List.mem_filter.mp hc
          simp only [Bool.not_eq_true', decide_eq_false_iff_not] at hq
          rcases hl1 c hcl with hmem | hres
          · exact absurd (show c.hash ∈ (passSt1 cfg free0 ts0).releaseIds
              from hmem) hq
          · have hres' : loopReason cfg (lowSpacePaths cfg free0)
                (passSt1 cfg free0 ts0).activeLeft c := hres
            rw [hAL2]
            exact hres'
        have hfree2 : ∀ p, (passSt1 cfg free0 ts0).free p ≤ free0 p := by
          intro p
          exact admitLoop_free_le cfg (lowSpacePaths cfg free0)
            (passCands cfg free0 ts0)
            ⟨(passOv cfg free0 ts0).activeLeft, free0, [], [], [], []⟩ p
        have hc3' : checkDiskBudget cfg free0 c0.save_path c0.amount_left =
            true := by
          apply checkDiskBudget_mono cfg hfree2
          exact hc3
        have hc4' : (passOv cfg free0 (postSnapshot cfg free0 ts0)).activeLeft +
            (c0.amount_left : Int) > cfg.capacityBytes := by
          rw [hAL2]
          exact hc4
        obtain ⟨e1, _, e3⟩ := admitLoop_no_admit_break cfg
          (lowSpacePaths cfg free0)
          (l1.filter (fun c => !(decide (c.hash ∈
            (passSt1 cfg free0 ts0).releaseIds)))) c0
          (l2.filter (fun c => !(decide (c.hash ∈
            (passSt1 cfg free0 ts0).releaseIds))))
          ⟨(passOv cfg free0 (postSnapshot cfg free0 ts0)).activeLeft,
            free0, [], [], [], []⟩ hsm hl1f hc1 hc2 hc3' hc4'
        constructor
        · show (admitLoop cfg (lowSpacePaths cfg free0)
            (passCands cfg free0 (postSnapshot cfg free0 ts0))
            ⟨(passOv cfg free0 (postSnapshot cfg free0 ts0)).activeLeft,
              free0, [], [], [], []⟩).releaseIds = []
          rw [hsplit]
          exact e1
        · show (admitLoop cfg (lowSpacePaths cfg free0)
            (passCands cfg free0 (postSnapshot cfg free0 ts0))
            ⟨(passOv cfg free0 (postSnapshot cfg free0 ts0)).activeLeft,
              free0, [], [], [], []⟩).free = free0
          rw [hsplit]
          exact e3

/-- Claim C4 as amended: re-running a pass against the unchanged snapshot
it left behind issues no further suspend or start requests — provided
torrent ids are unique, the first pass recorded no disk-insufficient
skips, its Anti-Deadlock Guard admitted nothing, and its tracked final
`active_left` is within `capacityBytes`. -/
theorem claim_C4_amended (cfg : Config) (free0 : String → Int)
    (ts0 : List Torrent) (hnd : (hashesOf ts0).Nodup)
    (hdisk : (runPass cfg free0 ts0).skippedDisk = [])
    (hguard : (runPass cfg free0 ts0).guardReleaseIds = [])
    (hcap : (runPass cfg free0 ts0).finalActiveLeft ≤ cfg.capacityBytes) :
    (runPass cfg free0 (postSnapshot cfg free0 ts0)).diskStops = [] ∧
    (runPass cfg free0 (postSnapshot cfg free0 ts0)).overflowStops = [] ∧
    (runPass cfg free0 (postSnapshot cfg free0 ts0)).releaseIds = [] := by
  obtain ⟨hrel2, hfree2⟩ :=
    post_loop_no_admit cfg free0 ts0 hnd hdisk hguard hcap
  have hov := passOv_post cfg free0 ts0 hnd hguard hcap
  have hRq : (passSt2 cfg free0 ts0).releaseIds =
      (passSt1 cfg free0 ts0).releaseIds :=
    guard_empty_releaseIds cfg free0 ts0 hguard
  have hcands2 := passCands_post cfg free0 ts0 hnd hguard hcap
  rw [hRq] at hcands2
  refine ⟨post_diskStopIds_nil cfg free0 ts0 hnd hguard, ?_, ?_⟩
  · show (passOv cfg free0 (postSnapshot cfg free0 ts0)).stopIds = []
    rw [hov]
  · show (passSt2 cfg free0 (postSnapshot cfg free0 ts0)).releaseIds = []
    unfold passSt2
    split_ifs with hon2
    · -- the guard of the follow-up pass is on: its walk finds nothing
      unfold passGuardOn at hon2
      simp only [Bool.and_eq_true] at hon2
      obtain ⟨⟨ha, hb⟩, hc⟩ := hon2
      rw [hov] at ha
      have ha' : (activesOf (postSnapshot cfg free0 ts0)).isEmpty = true := ha
      have hempty : activesOf (postSnapshot cfg free0 ts0) = [] := by
        simpa using ha'
      -- a silent first loop: otherwise a started torrent would be active
      have hrelS : (passSt1 cfg free0 ts0).releaseIds = [] := by
        by_contra hne
        obtain ⟨S, hsub, _, _, h4, _, _, _⟩ := passSt1_spec cfg free0 ts0
        rcases hS : S with _ | ⟨s, Srest⟩
        · rw [hS, List.map_nil] at h4
          exact hne h4
        · have hsS : s ∈ S := by
            rw [hS]
            exact List.mem_cons_self s Srest
          have hscand : s ∈ passCands cfg free0 ts0 := hsub.subset hsS
          have hsts2 : s ∈ (runPass cfg free0 ts0).ts2 :=
            (List.mem_filter.mp
              ((sortPaused_perm cfg (pausedOf (passOv cfg free0 ts0).ts)).subset
                hscand)).1
          have hm : s.hash ∈ (runPass cfg free0 ts0).releaseIds := by
            show s.hash ∈ (passSt2 cfg free0 ts0).releaseIds
            rw [hRq, h4]
            exact List.mem_map_of_mem _ hsS
          exact applyStarts_active_mem hsts2 hm hempty
      have hfree1 : (passSt1 cfg free0 ts0).free = free0 :=
        passSt1_free_of_empty cfg free0 ts0 hrelS
      have hrel0 : (runPass cfg free0 ts0).releaseIds = [] := by
        show (passSt2 cfg free0 ts0).releaseIds = []
        rw [hRq]
        exact hrelS
      have hpost : postSnapshot cfg free0 ts0 = (runPass cfg free0 ts0).ts2 := by
        unfold postSnapshot
        rw [hrel0]
        exact applyStarts_nil _
      have hactts2 : activesOf (runPass cfg free0 ts0).ts2 = [] := by
        rw [← hpost]
        exact hempty
      have hcc : passCands cfg free0 (postSnapshot cfg free0 ts0) =
          passCands cfg free0 ts0 := by
        rw [hcands2, hrelS]
        apply List.filter_eq_self.mpr
        intro a _
        simp
      have hon1 : passGuardOn cfg free0 ts0 = true := by
        unfold passGuardOn
        simp only [Bool.and_eq_true]
        refine ⟨⟨?_, ?_⟩, ?_⟩
        · have hax : activesOf (passOv cfg free0 ts0).ts = [] := hactts2
          simp [hax]
        · simp [passSt1_released_isEmpty cfg free0 ts0, hrelS]
        · rw [← hcc]
          exact hc
      have hst2 : passSt2 cfg free0 ts0 =
          antiDeadlock cfg (lowSpacePaths cfg free0)
            (passCands cfg free0 ts0) (passSt1 cfg free0 ts0) := by
        unfold passSt2
        rw [if_pos hon1]
      rcases antiDeadlock_spec cfg (lowSpacePaths cfg free0)
          (passCands cfg free0 ts0) (passSt1 cfg free0 ts0) with
          ⟨c, hfind, heqa⟩ | ⟨hfindn, heqa⟩
      · -- the first guard would have admitted c, contradicting silence
        exfalso
        rw [hst2, heqa] at hRq
        have hlen := congrArg List.length hRq
        simp at hlen
      · rw [hfree1] at hfindn
        rcases antiDeadlock_spec cfg (lowSpacePaths cfg free0)
            (passCands cfg free0 (postSnapshot cfg free0 ts0))
            (passSt1 cfg free0 (postSnapshot cfg free0 ts0)) with
            ⟨c2, hfind2, heqa2⟩ | ⟨_, heqa2⟩
        · exfalso
          rw [hcc, hfree2, hfindn] at hfind2
          cases hfind2
        · rw [heqa2]
          exact hrel2
    · exact hrel2

theorem claim_C4_amended_witness :
    (hashesOf [torrentA, torrentB, torrentC]).Nodup ∧
    (runPass scenarioACfg noFree [torrentA, torrentB, torrentC]).skippedDisk
      = [] ∧
    (runPass scenarioACfg noFree
      [torrentA, torrentB, torrentC]).guardReleaseIds = [] ∧
    (runPass scenarioACfg noFree
      [torrentA, torrentB, torrentC]).finalActiveLeft ≤
      scenarioACfg.capacityBytes ∧
    ((runPass scenarioACfg noFree (postSnapshot scenarioACfg noFree
        [torrentA, torrentB, torrentC])).diskStops = [] ∧
      (runPass scenarioACfg noFree (postSnapshot scenarioACfg noFree
        [torrentA, torrentB, torrentC])).overflowStops = [] ∧
      (runPass scenarioACfg noFree (postSnapshot scenarioACfg noFree
        [torrentA, torrentB, torrentC])).releaseIds = []) :=
  ⟨by decide, by decide, by decide, by decide,
    claim_C4_amended scenarioACfg noFree [torrentA, torrentB, torrentC]
      (by decide) (by decide) (by decide) (by decide)⟩
